import Mathlib

namespace RoomFinder

/-!
Shallow embedding of the room-availability engine of this repository:
`src/app/src/lib/room-finder.ts` together with the roster handling of
`src/app/src/app/api/rooms/route.ts`.

JavaScript strings are modelled as lists of characters.  The JavaScript
number NaN is modelled by `Option` (`none` is NaN): on this program's data
every arithmetic value is either a natural number of minutes or NaN, and
`Math.max`, `Math.min`, comparisons and subtraction are modelled with their
JavaScript NaN-propagation behaviour (`NaN` compares false to everything).
-/

/-- A decimal digit character (codes 48–57). -/
def isDigitChar (c : Char) : Bool := 48 ≤ c.toNat && c.toNat ≤ 57

/-- Value of a list of decimal digit characters, most significant first. -/
def digitsVal (s : List Char) : Nat :=
  s.foldl (fun a c => a * 10 + (c.toNat - 48)) 0

/-- JavaScript `Number(s)` on the fragment this program ever feeds it: the
empty string is `0`, a string of decimal digits is its value, and anything
else is NaN (`none`).  Signs, fractions, exponents and radix prefixes never
occur in this program's data; they are mapped to NaN here. -/
def jsNumber (s : List Char) : Option Nat :=
  if s = [] then some 0
  else if s.all isDigitChar then some (digitsVal s) else none

/-- JavaScript `s.split(':')`. -/
def splitColon : List Char → List (List Char)
  | [] => [[]]
  | c :: cs =>
    if c = ':' then [] :: splitColon cs
    else
      match splitColon cs with
      | [] => [[c]]
      | p :: ps => (c :: p) :: ps

/-- `timeToMinutes` from room-finder.ts:
`const [hours, minutes] = time.split(':').map(Number); return hours*60+minutes;`
If the split yields a single part, `minutes` is `undefined` and the result is
NaN; a non-numeric part likewise makes the result NaN.  There is no
validation and no exception. -/
def timeToMinutes (time : List Char) : Option Nat :=
  match (splitColon time).map jsNumber with
  | h :: m :: _ => do
    let hv ← h
    let mv ← m
    pure (hv * 60 + mv)
  | _ => none

/-- Decimal digit string of a natural number (JavaScript `n.toString()`),
written with structural fuel recursion so that it evaluates by `decide`. -/
def natToCharsAux : Nat → Nat → List Char → List Char
  | 0, _, acc => acc
  | fuel + 1, n, acc =>
    if n < 10 then Char.ofNat (48 + n) :: acc
    else natToCharsAux fuel (n / 10) (Char.ofNat (48 + n % 10) :: acc)

/-- JavaScript `n.toString()` for a natural number. -/
def natToChars (n : Nat) : List Char := natToCharsAux (n + 1) n []

/-- JavaScript `s.padStart(2, '0')`. -/
def padStart2 (s : List Char) : List Char :=
  if s.length < 2 then List.replicate (2 - s.length) '0' ++ s else s

/-- `minutesToTime` from room-finder.ts. -/
def minutesToTime (minutes : Nat) : List Char :=
  padStart2 (natToChars (minutes / 60)) ++ ':' :: padStart2 (natToChars (minutes % 60))

/-- `minutesToTime` applied to a possibly-NaN number: in JavaScript
`Math.floor(NaN/60)` is NaN and `"NaN".padStart(2,'0')` is `"NaN"`, so a NaN
argument yields the string `"NaN:NaN"`. -/
def minutesToTimeJ : Option Nat → List Char
  | some m => minutesToTime m
  | none => ['N', 'a', 'N', ':', 'N', 'a', 'N']

/-- JavaScript `Math.max` with NaN propagation. -/
def jmax : Option Nat → Option Nat → Option Nat
  | some a, some b => some (max a b)
  | _, _ => none

/-- JavaScript `Math.min` with NaN propagation. -/
def jmin : Option Nat → Option Nat → Option Nat
  | some a, some b => some (min a b)
  | _, _ => none

/-- JavaScript `a < b`; any comparison with NaN is false. -/
def jlt : Option Nat → Option Nat → Bool
  | some a, some b => decide (a < b)
  | _, _ => false

/-- JavaScript `a <= b`; any comparison with NaN is false. -/
def jle : Option Nat → Option Nat → Bool
  | some a, some b => decide (a ≤ b)
  | _, _ => false

/-- JavaScript `a >= b`; any comparison with NaN is false. -/
def jge : Option Nat → Option Nat → Bool
  | some a, some b => decide (b ≤ a)
  | _, _ => false

/-- JavaScript `a - b` on possibly-NaN minute values. -/
def jsub : Option Nat → Option Nat → Option Int
  | some a, some b => some ((a : Int) - (b : Int))
  | _, _ => none

/- ### Basic facts about the digit conversions -/

theorem natToCharsAux_acc (fuel n : Nat) (acc : List Char) :
    natToCharsAux fuel n acc = natToCharsAux fuel n [] ++ acc := by
  induction fuel generalizing n acc with
  | zero => simp [natToCharsAux]
  | succ fuel ih =>
    by_cases h : n < 10
    · simp [natToCharsAux, h]
    · rw [natToCharsAux, natToCharsAux, if_neg h, if_neg h, ih (n / 10),
        ih (n / 10) [Char.ofNat (48 + n % 10)], List.append_assoc]
      rfl

theorem digit_char_toNat {d : Nat} (h : d < 10) :
    (Char.ofNat (48 + d)).toNat = 48 + d := by
  interval_cases d <;> decide

theorem digit_char_isDigit {d : Nat} (h : d < 10) :
    isDigitChar (Char.ofNat (48 + d)) = true := by
  interval_cases d <;> decide

theorem digitsVal_append (s t : List Char) :
    digitsVal (s ++ t) = t.foldl (fun a c => a * 10 + (c.toNat - 48)) (digitsVal s) := by
  simp [digitsVal, List.foldl_append]

theorem natToCharsAux_spec (fuel : Nat) :
    ∀ n, n < 10 ^ fuel →
      (natToCharsAux fuel n []).all isDigitChar = true ∧
      digitsVal (natToCharsAux fuel n []) = n := by
  induction fuel with
  | zero =>
    intro n h
    have hn : n = 0 := by
      have : n < 1 := by simpa using h
      omega
    subst hn
    exact ⟨rfl, rfl⟩
  | succ fuel ih =>
    intro n h
    by_cases h10 : n < 10
    · refine ⟨?_, ?_⟩ <;>
        simp [natToCharsAux, h10, digitsVal, digit_char_isDigit h10, digit_char_toNat h10]
    · have hdiv : n / 10 < 10 ^ fuel := by
        rw [Nat.div_lt_iff_lt_mul (by omega)]
        calc n < 10 ^ (fuel + 1) := h
        _ = 10 ^ fuel * 10 := by ring
      obtain ⟨hall, hval⟩ := ih (n / 10) hdiv
      have hmod : n % 10 < 10 := Nat.mod_lt _ (by omega)
      rw [natToCharsAux, if_neg h10, natToCharsAux_acc]
      refine ⟨?_, ?_⟩
      · simp only [List.all_append, hall, Bool.true_and, List.all_cons, List.all_nil,
          Bool.and_true]
        exact digit_char_isDigit hmod
      · rw [digitsVal_append]
        simp only [List.foldl_cons, List.foldl_nil, hval, digit_char_toNat hmod]
        omega

theorem natToChars_ne_nil (n : Nat) : natToChars n ≠ [] := by
  rw [natToChars]
  by_cases h10 : n < 10
  · simp [natToCharsAux, h10]
  · rw [natToCharsAux, if_neg h10, natToCharsAux_acc]
    simp

theorem natToChars_spec (n : Nat) :
    (natToChars n).all isDigitChar = true ∧
    digitsVal (natToChars n) = n ∧ natToChars n ≠ [] := by
  have h1 : n < 2 ^ n := Nat.lt_two_pow n
  have h2 : 2 ^ n ≤ 10 ^ n := Nat.pow_le_pow_left (by omega) n
  have h3 : (10 : Nat) ^ n ≤ 10 ^ (n + 1) := Nat.pow_le_pow_right (by omega) (by omega)
  obtain ⟨hall, hval⟩ := natToCharsAux_spec (n + 1) n (by omega)
  exact ⟨hall, hval, natToChars_ne_nil n⟩

theorem jsNumber_digits {s : List Char} (hall : s.all isDigitChar = true)
    (hne : s ≠ []) : jsNumber s = some (digitsVal s) := by
  simp [jsNumber, hne, hall]

theorem digitsVal_cons_zero (s : List Char) :
    digitsVal ('0' :: s) = digitsVal s := by
  simp [digitsVal]

theorem jsNumber_padStart2 {s : List Char} (hall : s.all isDigitChar = true)
    (hne : s ≠ []) : jsNumber (padStart2 s) = some (digitsVal s) := by
  match s, hne with
  | [c], _ =>
    have hpad : padStart2 [c] = '0' :: [c] := by
      rw [padStart2, if_pos (by simp)]
      rfl
    have hall2 : ('0' :: [c]).all isDigitChar = true := by
      simp only [List.all_cons] at hall ⊢
      simp only [hall]
      decide
    rw [hpad, jsNumber_digits hall2 (by simp), digitsVal_cons_zero]
  | c :: d :: t, _ =>
    have hlen : ¬ (c :: d :: t).length < 2 := by simp
    rw [padStart2, if_neg hlen, jsNumber_digits hall (by simp)]

theorem jsNumber_padStart2_natToChars (n : Nat) :
    jsNumber (padStart2 (natToChars n)) = some n := by
  obtain ⟨hall, hval, hne⟩ := natToChars_spec n
  rw [jsNumber_padStart2 hall hne, hval]

theorem natToChars_no_colon {n : Nat} {c : Char} (h : c ∈ natToChars n) :
    ¬ c = ':' := by
  obtain ⟨hall, -, -⟩ := natToChars_spec n
  intro hc
  subst hc
  have := List.all_eq_true.mp hall _ h
  simp [isDigitChar] at this

theorem padStart2_no_colon {s : List Char} {c : Char}
    (hs : ∀ x ∈ s, ¬ x = ':') (h : c ∈ padStart2 s) : ¬ c = ':' := by
  unfold padStart2 at h
  by_cases hl : s.length < 2
  · rw [if_pos hl] at h
    rcases List.mem_append.mp h with h | h
    · have := List.eq_of_mem_replicate h
      subst this
      decide
    · exact hs _ h
  · rw [if_neg hl] at h
    exact hs _ h

theorem splitColon_no_colon {s : List Char} (h : ∀ x ∈ s, ¬ x = ':') :
    splitColon s = [s] := by
  induction s with
  | nil => rfl
  | cons c cs ih =>
    have hc : ¬ c = ':' := h c (by simp)
    rw [splitColon, if_neg hc, ih (fun x hx => h x (by simp [hx]))]

theorem splitColon_append {s t : List Char} (h : ∀ x ∈ s, ¬ x = ':') :
    splitColon (s ++ ':' :: t) = s :: splitColon t := by
  induction s with
  | nil => simp [splitColon]
  | cons c cs ih =>
    have hc : ¬ c = ':' := h c (by simp)
    rw [List.cons_append, splitColon, if_neg hc,
      ih (fun x hx => h x (by simp [hx]))]

/-- Round trip: `timeToMinutes (minutesToTime m) = some m` for every natural
number of minutes. -/
theorem timeToMinutes_minutesToTime (m : Nat) :
    timeToMinutes (minutesToTime m) = some m := by
  unfold minutesToTime timeToMinutes
  rw [splitColon_append
      (fun x hx => padStart2_no_colon (fun y hy => natToChars_no_colon hy) hx),
    splitColon_no_colon
      (fun x hx => padStart2_no_colon (fun y hy => natToChars_no_colon hy) hx)]
  simp only [List.map_cons, List.map_nil]
  rw [jsNumber_padStart2_natToChars, jsNumber_padStart2_natToChars]
  simp [Option.bind]
  omega

theorem minutesToTime_inj {a b : Nat} (h : minutesToTime a = minutesToTime b) :
    a = b := by
  have ha := timeToMinutes_minutesToTime a
  rw [h, timeToMinutes_minutesToTime b] at ha
  exact (Option.some_inj.mp ha).symm

/- ### Data model -/

/-- `TimeSlot` from the types module: `{ start, end }` as `HH:mm` strings.
Optional metadata fields riding on occupied slots are opaque to the engine
and omitted. -/
structure TimeSlot where
  start : List Char
  «end» : List Char
deriving DecidableEq

/-- `RoomSchedule` from the types module: `{ room, day, occupied }`. -/
structure RoomSchedule where
  room : List Char
  day : List Char
  occupied : List TimeSlot
deriving DecidableEq

/-- `FreeRoom` as pushed by `findFreeRooms`: `{ room, day, freeFrom,
freeTill, duration }`.  `duration` is a JavaScript number; on malformed slot
strings it is NaN (`none`). -/
structure FreeRoom where
  room : List Char
  day : List Char
  freeFrom : List Char
  freeTill : List Char
  duration : Option Int
deriving DecidableEq

/-- `OPERATING_HOURS` from the types module: `{ start: '09:00', end: '19:30' }`. -/
structure OperatingHours where
  start : List Char
  «end» : List Char

def OPERATING_HOURS : OperatingHours :=
  ⟨['0', '9', ':', '0', '0'], ['1', '9', ':', '3', '0']⟩

/- ### The JavaScript stable sort -/

/-- Insertion for the stable sort: `insertJS le x l` places `x` before the
first element `y` of `l` with `le x y`. -/
def insertJS (le : α → α → Bool) (x : α) : List α → List α
  | [] => [x]
  | y :: ys => if le x y then x :: y :: ys else y :: insertJS le x ys

/-- `Array.prototype.sort(cmp)` is required by ECMAScript (ES2019 and later)
to be a stable sort, and for a consistent comparator every stable sort
computes the same list; `jsSort le`, with `le a b` meaning `cmp(a,b) <= 0`,
is that list. -/
def jsSort (le : α → α → Bool) : List α → List α
  | [] => []
  | x :: xs => insertJS le x (jsSort le xs)

/- ### findFreeSlots (room-finder.ts lines 41–101) -/

/-- The sort comparator of `findFreeSlots`:
`timeToMinutes(a.start) - timeToMinutes(b.start)`, as the predicate
"compares ≤ 0".  A NaN comparator result is treated as `+0` by the
ECMAScript SortCompare operation, hence `true` here. -/
def slotLE (a b : TimeSlot) : Bool :=
  match timeToMinutes a.start, timeToMinutes b.start with
  | some x, some y => decide (x ≤ y)
  | _, _ => true

/-- One iteration of the merging loop of `findFreeSlots` (lines 55–73).  The
`mergedOccupied` array is kept in reverse order (most recently pushed slot
at the head) so that the source's `push` and mutate-last-element operations
become head operations; `mergedOccupied` reverses it back afterwards. -/
def mergeStep (startMinutes endMinutes : Option Nat) (acc : List TimeSlot)
    (slot : TimeSlot) : List TimeSlot :=
  let slotStart := jmax (timeToMinutes slot.start) startMinutes
  let slotEnd := jmin (timeToMinutes slot.«end») endMinutes
  if jge slotStart slotEnd then acc
  else
    match acc with
    | [] => [⟨minutesToTimeJ slotStart, minutesToTimeJ slotEnd⟩]
    | last :: rest =>
      let lastEnd := timeToMinutes last.«end»
      if jle slotStart lastEnd then
        ⟨last.start, minutesToTimeJ (jmax lastEnd slotEnd)⟩ :: rest
      else ⟨minutesToTimeJ slotStart, minutesToTimeJ slotEnd⟩ :: last :: rest

/-- The sort-and-merge phase of `findFreeSlots` (lines 49–73): the
`mergedOccupied` list of the source. -/
def mergedOccupied (occupiedSlots : List TimeSlot)
    (operatingStart operatingEnd : List Char) : List TimeSlot :=
  ((jsSort slotLE occupiedSlots).foldl
    (mergeStep (timeToMinutes operatingStart) (timeToMinutes operatingEnd)) []).reverse

/-- The inversion loop of `findFreeSlots` (lines 76–98), including the final
push of the remaining `[currentStart, operatingEnd)` slot. -/
def invertLoop (endMinutes : Option Nat) (operatingEnd : List Char) :
    Option Nat → List TimeSlot → List TimeSlot
  | currentStart, [] =>
    if jlt currentStart endMinutes then
      [⟨minutesToTimeJ currentStart, operatingEnd⟩]
    else []
  | currentStart, occupied :: rest =>
    let occStart := timeToMinutes occupied.start
    let next := jmax currentStart (timeToMinutes occupied.«end»)
    if jlt currentStart occStart then
      ⟨minutesToTimeJ currentStart, occupied.start⟩ ::
        invertLoop endMinutes operatingEnd next rest
    else invertLoop endMinutes operatingEnd next rest

/-- `findFreeSlots` from room-finder.ts (lines 41–101).  The source declares
the operating window as defaulted parameters; callers inside the module pass
only the occupied slots, so the window arguments are explicit here and the
call sites supply `OPERATING_HOURS`. -/
def findFreeSlots (occupiedSlots : List TimeSlot)
    (operatingStart operatingEnd : List Char) : List TimeSlot :=
  invertLoop (timeToMinutes operatingEnd) operatingEnd
    (timeToMinutes operatingStart)
    (mergedOccupied occupiedSlots operatingStart operatingEnd)

/- ### Minute-level counterparts used by the proofs -/

/-- Sort predicate on minute pairs: ascending start. -/
def pairLE (p q : Nat × Nat) : Bool := decide (p.1 ≤ q.1)

/-- `mergeStep` on minute pairs. -/
def mergeStepM (startM endM : Nat) (acc : List (Nat × Nat)) (p : Nat × Nat) :
    List (Nat × Nat) :=
  let s := max p.1 startM
  let e := min p.2 endM
  if e ≤ s then acc
  else
    match acc with
    | [] => [(s, e)]
    | (ls, le) :: rest =>
      if s ≤ le then (ls, max le e) :: rest else (s, e) :: (ls, le) :: rest

/-- `mergedOccupied` on minute pairs. -/
def mergedOccupiedM (ps : List (Nat × Nat)) (startM endM : Nat) :
    List (Nat × Nat) :=
  ((jsSort pairLE ps).foldl (mergeStepM startM endM) []).reverse

/-- `invertLoop` on minute pairs. -/
def invertLoopM (endM : Nat) : Nat → List (Nat × Nat) → List (Nat × Nat)
  | cur, [] => if cur < endM then [(cur, endM)] else []
  | cur, (s, e) :: rest =>
    if cur < s then (cur, s) :: invertLoopM endM (max cur e) rest
    else invertLoopM endM (max cur e) rest

/-- `findFreeSlots` on minute pairs. -/
def freeSlotsM (ps : List (Nat × Nat)) (startM endM : Nat) : List (Nat × Nat) :=
  invertLoopM endM startM (mergedOccupiedM ps startM endM)

/-- The minute pair of a slot (meaningful on slots whose fields parse). -/
def toPair (s : TimeSlot) : Nat × Nat :=
  ((timeToMinutes s.start).getD 0, (timeToMinutes s.«end»).getD 0)

/-- The slot printed from a minute pair. -/
def ofPair (p : Nat × Nat) : TimeSlot := ⟨minutesToTime p.1, minutesToTime p.2⟩

/-- A well-formed zero-padded clock string, i.e. a value of `minutesToTime`. -/
def ValidClock (s : List Char) : Prop := ∃ m, s = minutesToTime m

/-- A slot whose two fields are well-formed clock strings. -/
def ValidSlot (s : TimeSlot) : Prop := ValidClock s.start ∧ ValidClock s.«end»

/- ### Facts about the stable sort -/

theorem insertJS_perm (le : α → α → Bool) (x : α) (l : List α) :
    List.Perm (insertJS le x l) (x :: l) := by
  induction l with
  | nil => exact List.Perm.refl _
  | cons y ys ih =>
    by_cases h : le x y
    · rw [insertJS, if_pos h]
    · rw [insertJS, if_neg h]
      exact (ih.cons y).trans (List.Perm.swap x y ys)

theorem jsSort_perm (le : α → α → Bool) (l : List α) : List.Perm (jsSort le l) l := by
  induction l with
  | nil => exact List.Perm.refl _
  | cons x xs ih => exact (insertJS_perm le x (jsSort le xs)).trans (ih.cons x)

theorem mem_jsSort {le : α → α → Bool} {l : List α} {a : α} :
    a ∈ jsSort le l ↔ a ∈ l :=
  (jsSort_perm le l).mem_iff

theorem sorted_insertJS {le : α → α → Bool}
    (total : ∀ a b, le a b = true ∨ le b a = true)
    (trans : ∀ a b c, le a b = true → le b c = true → le a c = true)
    {x : α} {l : List α} (hl : l.Pairwise (le · · = true)) :
    (insertJS le x l).Pairwise (le · · = true) := by
  induction l with
  | nil => simp [insertJS]
  | cons y ys ih =>
    rcases List.pairwise_cons.mp hl with ⟨hy, hys⟩
    by_cases h : le x y
    · rw [insertJS, if_pos h]
      refine List.pairwise_cons.mpr ⟨?_, hl⟩
      intro b hb
      rcases List.mem_cons.mp hb with rfl | hb
      · exact h
      · exact trans x y b h (hy b hb)
    · rw [insertJS, if_neg h]
      refine List.pairwise_cons.mpr ⟨?_, ih hys⟩
      intro b hb
      rcases List.mem_cons.mp ((insertJS_perm le x ys).mem_iff.mp hb) with hbx | hb
      · rw [hbx]
        rcases total x y with hxy | hyx
        · exact absurd hxy h
        · exact hyx
      · exact hy b hb

theorem sorted_jsSort {le : α → α → Bool}
    (total : ∀ a b, le a b = true ∨ le b a = true)
    (trans : ∀ a b c, le a b = true → le b c = true → le a c = true)
    (l : List α) : (jsSort le l).Pairwise (le · · = true) := by
  induction l with
  | nil => simp [jsSort]
  | cons x xs ih => exact sorted_insertJS total trans ih

theorem jsSort_of_pairwise {le : α → α → Bool} {l : List α}
    (hl : l.Pairwise (le · · = true)) : jsSort le l = l := by
  induction l with
  | nil => rfl
  | cons x xs ih =>
    rcases List.pairwise_cons.mp hl with ⟨hx, hxs⟩
    rw [jsSort, ih hxs]
    cases xs with
    | nil => rfl
    | cons y ys => rw [insertJS, if_pos (hx y (by simp))]

theorem map_insertJS {le : α → α → Bool} {le' : β → β → Bool} {f : α → β}
    {x : α} {l : List α} (h : ∀ b ∈ l, le x b = le' (f x) (f b)) :
    (insertJS le x l).map f = insertJS le' (f x) (l.map f) := by
  induction l with
  | nil => rfl
  | cons y ys ih =>
    have hxy : le x y = le' (f x) (f y) := h y (by simp)
    by_cases hc : le x y
    · rw [insertJS, if_pos hc, List.map_cons, List.map_cons, insertJS,
        if_pos (hxy ▸ hc)]
    · rw [insertJS, if_neg hc, List.map_cons, List.map_cons, insertJS,
        if_neg (hxy ▸ hc), ih (fun b hb => h b (by simp [hb]))]

theorem map_jsSort {le : α → α → Bool} {le' : β → β → Bool} {f : α → β}
    {l : List α} (h : ∀ a ∈ l, ∀ b ∈ l, le a b = le' (f a) (f b)) :
    (jsSort le l).map f = jsSort le' (l.map f) := by
  induction l with
  | nil => rfl
  | cons x xs ih =>
    rw [jsSort, List.map_cons, jsSort,
      ← ih (fun a ha b hb => h a (by simp [ha]) b (by simp [hb]))]
    exact map_insertJS (fun b hb =>
      h x (by simp) b (by simp [mem_jsSort.mp hb]))

/- ### Validity and the string/minute simulation -/

theorem validClock_iff {s : List Char} (h : ValidClock s) :
    ∃ m, s = minutesToTime m ∧ timeToMinutes s = some m := by
  obtain ⟨m, rfl⟩ := h
  exact ⟨m, rfl, timeToMinutes_minutesToTime m⟩

theorem toPair_eq {s : TimeSlot} {a b : Nat} (hs : s.start = minutesToTime a)
    (he : s.«end» = minutesToTime b) : toPair s = (a, b) := by
  simp [toPair, hs, he, timeToMinutes_minutesToTime]

theorem ofPair_toPair {s : TimeSlot} (h : ValidSlot s) : ofPair (toPair s) = s := by
  obtain ⟨⟨a, ha⟩, ⟨b, hb⟩⟩ := h
  rw [toPair_eq ha hb]
  cases s
  simp only [ofPair] at *
  simp_all

theorem toPair_ofPair (p : Nat × Nat) : toPair (ofPair p) = p := by
  simp [toPair, ofPair, timeToMinutes_minutesToTime]

theorem validSlot_ofPair (p : Nat × Nat) : ValidSlot (ofPair p) :=
  ⟨⟨p.1, rfl⟩, ⟨p.2, rfl⟩⟩

theorem slotLE_eq_pairLE {a b : TimeSlot} (ha : ValidSlot a) (hb : ValidSlot b) :
    slotLE a b = pairLE (toPair a) (toPair b) := by
  obtain ⟨⟨x, hx⟩, ⟨y, hy⟩⟩ := ha
  obtain ⟨⟨u, hu⟩, ⟨v, hv⟩⟩ := hb
  rw [toPair_eq hx hy, toPair_eq hu hv]
  simp [slotLE, pairLE, hx, hu, timeToMinutes_minutesToTime]

theorem mergeStep_sim {sM eM : Nat} {accM : List (Nat × Nat)} {slot : TimeSlot}
    (h : ValidSlot slot) :
    mergeStep (some sM) (some eM) (accM.map ofPair) slot =
      (mergeStepM sM eM accM (toPair slot)).map ofPair := by
  obtain ⟨⟨a, ha⟩, ⟨b, hb⟩⟩ := h
  rw [toPair_eq ha hb]
  unfold mergeStep mergeStepM
  rw [ha, hb]
  simp only [timeToMinutes_minutesToTime, jmax, jmin, jge, jle]
  by_cases hskip : min b eM ≤ max a sM
  · simp [hskip]
  · rw [if_neg (by simpa using hskip), if_neg (by simpa using hskip)]
    cases accM with
    | nil => simp [ofPair, minutesToTimeJ]
    | cons q rest =>
      obtain ⟨ls, le⟩ := q
      simp only [List.map_cons, ofPair, timeToMinutes_minutesToTime]
      by_cases hmerge : max a sM ≤ le
      · simp [hmerge, jmax, minutesToTimeJ, ofPair]
      · simp [hmerge, minutesToTimeJ, ofPair]

theorem foldl_mergeStep_sim {sM eM : Nat} :
    ∀ (l : List TimeSlot) (accM : List (Nat × Nat)),
      (∀ s ∈ l, ValidSlot s) →
      l.foldl (mergeStep (some sM) (some eM)) (accM.map ofPair) =
        ((l.map toPair).foldl (mergeStepM sM eM) accM).map ofPair := by
  intro l
  induction l with
  | nil => intro accM _; rfl
  | cons s rest ih =>
    intro accM hval
    rw [List.foldl_cons, List.map_cons, List.foldl_cons,
      mergeStep_sim (hval s (by simp))]
    exact ih _ (fun t ht => hval t (by simp [ht]))

theorem mergedOccupied_sim {sM eM : Nat} {l : List TimeSlot}
    (hval : ∀ s ∈ l, ValidSlot s) :
    mergedOccupied l (minutesToTime sM) (minutesToTime eM) =
      (mergedOccupiedM (l.map toPair) sM eM).map ofPair := by
  unfold mergedOccupied mergedOccupiedM
  rw [timeToMinutes_minutesToTime, timeToMinutes_minutesToTime]
  have hvalsort : ∀ s ∈ jsSort slotLE l, ValidSlot s :=
    fun s hs => hval s (mem_jsSort.mp hs)
  have hmap : (jsSort slotLE l).map toPair = jsSort pairLE (l.map toPair) :=
    map_jsSort (fun a ha b hb => slotLE_eq_pairLE (hval a ha) (hval b hb))
  have hfold := @foldl_mergeStep_sim sM eM (jsSort slotLE l) [] hvalsort
  simp only [List.map_nil] at hfold
  rw [List.map_reverse, ← hmap, hfold]

theorem invertLoop_sim {eM : Nat} :
    ∀ (M : List (Nat × Nat)) (cur : Nat),
      invertLoop (some eM) (minutesToTime eM) (some cur) (M.map ofPair) =
        (invertLoopM eM cur M).map ofPair := by
  intro M
  induction M with
  | nil =>
    intro cur
    unfold invertLoop invertLoopM
    by_cases h : cur < eM
    · simp [jlt, h, minutesToTimeJ, ofPair]
    · simp [jlt, h]
  | cons p rest ih =>
    intro cur
    obtain ⟨s, e⟩ := p
    simp only [List.map_cons]
    unfold invertLoop invertLoopM
    simp only [ofPair, timeToMinutes_minutesToTime, jmax, jlt]
    by_cases h : cur < s
    · rw [if_pos (by simpa using h), if_pos h, ih (max cur e)]
      simp [minutesToTimeJ, ofPair]
    · rw [if_neg (by simpa using h), if_neg h, ih (max cur e)]

theorem findFreeSlots_sim {sM eM : Nat} {l : List TimeSlot}
    (hval : ∀ s ∈ l, ValidSlot s) :
    findFreeSlots l (minutesToTime sM) (minutesToTime eM) =
      (freeSlotsM (l.map toPair) sM eM).map ofPair := by
  unfold findFreeSlots freeSlotsM
  rw [timeToMinutes_minutesToTime, timeToMinutes_minutesToTime,
    mergedOccupied_sim hval, invertLoop_sim]

/- ### Structure of the merged occupied list -/

/-- Well-formedness of a merged occupied list: every slot lies inside the
window with positive duration, and consecutive slots are separated by a
strictly positive gap (overlapping and touching slots have been merged). -/
def SlotsOK (sM eM : Nat) (l : List (Nat × Nat)) : Prop :=
  (∀ p ∈ l, sM ≤ p.1 ∧ p.1 < p.2 ∧ p.2 ≤ eM) ∧
    l.Chain' (fun p q => p.2 < q.1)

theorem mergeStepM_skip {sM eM : Nat} {p : Nat × Nat}
    (acc : List (Nat × Nat)) (h : min p.2 eM ≤ max p.1 sM) :
    mergeStepM sM eM acc p = acc := by
  cases acc with
  | nil => simp [mergeStepM, h]
  | cons q rest => obtain ⟨ls, le⟩ := q; simp [mergeStepM, h]

theorem mergeStepM_nil {sM eM : Nat} {p : Nat × Nat}
    (h : ¬ min p.2 eM ≤ max p.1 sM) :
    mergeStepM sM eM [] p = [(max p.1 sM, min p.2 eM)] := by
  simp [mergeStepM, h]

theorem mergeStepM_merge {sM eM : Nat} {p : Nat × Nat} {ls le : Nat}
    {rest : List (Nat × Nat)} (h : ¬ min p.2 eM ≤ max p.1 sM)
    (hm : max p.1 sM ≤ le) :
    mergeStepM sM eM ((ls, le) :: rest) p =
      (ls, max le (min p.2 eM)) :: rest := by
  simp [mergeStepM, h, hm]

theorem mergeStepM_push {sM eM : Nat} {p : Nat × Nat} {ls le : Nat}
    {rest : List (Nat × Nat)} (h : ¬ min p.2 eM ≤ max p.1 sM)
    (hm : ¬ max p.1 sM ≤ le) :
    mergeStepM sM eM ((ls, le) :: rest) p =
      (max p.1 sM, min p.2 eM) :: (ls, le) :: rest := by
  simp [mergeStepM, h, hm]

/-- The reversed-accumulator invariant preserved by one merging step. -/
theorem mergeStepM_inv {sM eM : Nat} {acc : List (Nat × Nat)} (p : Nat × Nat)
    (hmem : ∀ q ∈ acc, sM ≤ q.1 ∧ q.1 < q.2 ∧ q.2 ≤ eM)
    (hch : acc.Chain' (fun a b => b.2 < a.1)) :
    (∀ q ∈ mergeStepM sM eM acc p, sM ≤ q.1 ∧ q.1 < q.2 ∧ q.2 ≤ eM) ∧
      (mergeStepM sM eM acc p).Chain' (fun a b => b.2 < a.1) := by
  have hsle : sM ≤ max p.1 sM := Nat.le_max_right _ _
  have hele : min p.2 eM ≤ eM := Nat.min_le_right _ _
  by_cases hskip : min p.2 eM ≤ max p.1 sM
  · rw [mergeStepM_skip acc hskip]
    exact ⟨hmem, hch⟩
  · cases acc with
    | nil =>
      rw [mergeStepM_nil hskip]
      refine ⟨?_, by simp⟩
      intro q hq
      simp only [List.mem_singleton] at hq
      subst hq
      exact ⟨hsle, by omega, hele⟩
    | cons last rest =>
      obtain ⟨ls, le⟩ := last
      obtain ⟨hb, hcr⟩ := List.chain'_cons'.mp hch
      have hlast := hmem (ls, le) (by simp)
      simp only at hlast
      by_cases hmerge : max p.1 sM ≤ le
      · rw [mergeStepM_merge hskip hmerge]
        refine ⟨?_, List.chain'_cons'.mpr ⟨?_, hcr⟩⟩
        · intro q hq
          rcases List.mem_cons.mp hq with rfl | hq
          · have h1 : le ≤ max le (min p.2 eM) := Nat.le_max_left _ _
            have h2 : max le (min p.2 eM) ≤ eM :=
              Nat.max_le.mpr ⟨hlast.2.2, hele⟩
            exact ⟨hlast.1, by omega, h2⟩
          · exact hmem q (by simp [hq])
        · intro y hy
          exact hb y hy
      · rw [mergeStepM_push hskip hmerge]
        refine ⟨?_, List.chain'_cons.mpr ⟨by simp only; omega,
          List.chain'_cons'.mpr ⟨hb, hcr⟩⟩⟩
        intro q hq
        rcases List.mem_cons.mp hq with rfl | hq
        · exact ⟨hsle, by omega, hele⟩
        · exact hmem q hq

theorem foldl_mergeStepM_inv {sM eM : Nat} :
    ∀ (l : List (Nat × Nat)) (acc : List (Nat × Nat)),
      (∀ q ∈ acc, sM ≤ q.1 ∧ q.1 < q.2 ∧ q.2 ≤ eM) →
      acc.Chain' (fun a b => b.2 < a.1) →
      (∀ q ∈ l.foldl (mergeStepM sM eM) acc, sM ≤ q.1 ∧ q.1 < q.2 ∧ q.2 ≤ eM) ∧
        (l.foldl (mergeStepM sM eM) acc).Chain' (fun a b => b.2 < a.1) := by
  intro l
  induction l with
  | nil => intro acc hmem hch; exact ⟨hmem, hch⟩
  | cons p rest ih =>
    intro acc hmem hch
    obtain ⟨hmem2, hch2⟩ := mergeStepM_inv p hmem hch
    exact ih _ hmem2 hch2

/-- The merged occupied list is always well formed, whatever the input. -/
theorem slotsOK_mergedOccupiedM (ps : List (Nat × Nat)) (sM eM : Nat) :
    SlotsOK sM eM (mergedOccupiedM ps sM eM) := by
  obtain ⟨hmem, hch⟩ :=
    @foldl_mergeStepM_inv sM eM (jsSort pairLE ps) []
      (by simp) (by simp)
  refine ⟨fun p hp => hmem p (List.mem_reverse.mp hp), ?_⟩
  rw [mergedOccupiedM]
  exact List.chain'_reverse.mpr hch

theorem slotsOK_head_lt {sM eM : Nat} :
    ∀ {p : Nat × Nat} {rest : List (Nat × Nat)},
      SlotsOK sM eM (p :: rest) → ∀ q ∈ rest, p.2 < q.1 := by
  intro p rest
  induction rest generalizing p with
  | nil => intro _ q hq; simp at hq
  | cons r rest ih =>
    intro h q hq
    obtain ⟨hmem, hch⟩ := h
    obtain ⟨hpr, hcr⟩ := List.chain'_cons.mp hch
    rcases List.mem_cons.mp hq with rfl | hq
    · exact hpr
    · have hr := hmem r (by simp)
      have := ih ⟨fun x hx => hmem x (List.mem_cons_of_mem _ hx), hcr⟩ q hq
      omega

theorem slotsOK_tail {sM eM : Nat} {p : Nat × Nat} {rest : List (Nat × Nat)}
    (h : SlotsOK sM eM (p :: rest)) : SlotsOK sM eM rest :=
  ⟨fun x hx => h.1 x (List.mem_cons_of_mem _ hx), (List.chain'_cons'.mp h.2).2⟩

theorem slotsOK_pairwise {sM eM : Nat} :
    ∀ {l : List (Nat × Nat)}, SlotsOK sM eM l →
      l.Pairwise (fun p q => p.2 < q.1) := by
  intro l
  induction l with
  | nil => intro _; simp
  | cons p rest ih =>
    intro h
    exact List.pairwise_cons.mpr ⟨slotsOK_head_lt h, ih (slotsOK_tail h)⟩

/- ### Inversion: bounds, chain and the tiling count -/

theorem invertLoopM_ok {sM eM : Nat} :
    ∀ (M : List (Nat × Nat)) (cur : Nat), SlotsOK sM eM M →
      (∀ p ∈ M, cur ≤ p.1) →
      (∀ q ∈ invertLoopM eM cur M, cur ≤ q.1 ∧ q.1 < q.2 ∧ q.2 ≤ eM) ∧
        (invertLoopM eM cur M).Chain' (fun p q => p.2 < q.1) := by
  intro M
  induction M with
  | nil =>
    intro cur _ _
    unfold invertLoopM
    by_cases h : cur < eM
    · rw [if_pos h]
      exact ⟨fun q hq => by
        simp only [List.mem_singleton] at hq
        subst hq
        exact ⟨Nat.le_refl _, h, Nat.le_refl _⟩, by simp⟩
    · rw [if_neg h]
      exact ⟨by simp, by simp⟩
  | cons p rest ih =>
    intro cur hOK hcur
    obtain ⟨s, e⟩ := p
    have hps := hOK.1 (s, e) (by simp)
    have hrest : SlotsOK sM eM rest := slotsOK_tail hOK
    have hgap : ∀ q ∈ rest, e < q.1 := slotsOK_head_lt hOK
    have hcur2 : ∀ q ∈ rest, max cur e ≤ q.1 := by
      intro q hq
      have h1 := hgap q hq
      exact Nat.max_le.mpr ⟨hcur q (by simp [hq]), by omega⟩
    obtain ⟨ihmem, ihch⟩ := ih (max cur e) hrest hcur2
    have hmono : ∀ q ∈ invertLoopM eM (max cur e) rest,
        cur ≤ q.1 ∧ q.1 < q.2 ∧ q.2 ≤ eM := by
      intro q hq
      have h1 := ihmem q hq
      exact ⟨le_trans (Nat.le_max_left cur e) h1.1, h1.2⟩
    unfold invertLoopM
    by_cases h : cur < s
    · rw [if_pos h]
      refine ⟨?_, List.chain'_cons'.mpr ⟨?_, ihch⟩⟩
      · intro q hq
        rcases List.mem_cons.mp hq with rfl | hq
        · exact ⟨Nat.le_refl _, h, by omega⟩
        · exact hmono q hq
      · intro y hy
        have h1 := ihmem y (List.mem_of_mem_head? hy)
        have h2 : e ≤ y.1 := le_trans (Nat.le_max_right cur e) h1.1
        simp only
        omega
    · rw [if_neg h]
      exact ⟨hmono, ihch⟩

/-- The Boolean predicate "minute `t` lies in the slot `p`". -/
def coversB (t : Nat) (p : Nat × Nat) : Bool := decide (p.1 ≤ t ∧ t < p.2)

theorem countP_coversB_cons {t : Nat} {p : Nat × Nat} {l : List (Nat × Nat)} :
    (p :: l).countP (coversB t) =
      l.countP (coversB t) + if p.1 ≤ t ∧ t < p.2 then 1 else 0 := by
  rw [List.countP_cons]
  by_cases h : p.1 ≤ t ∧ t < p.2
  · rw [if_pos h, if_pos (by simpa [coversB] using h)]
  · rw [if_neg h, if_neg (by simpa [coversB] using h)]

theorem countP_zero_of_lt {t : Nat} {l : List (Nat × Nat)}
    (h : ∀ q ∈ l, t < q.1) : l.countP (coversB t) = 0 := by
  rw [List.countP_eq_zero]
  intro q hq
  have := h q hq
  simp only [coversB, decide_eq_true_eq]
  omega

/-- The tiling count: every minute of `[cur, eM)` is covered by exactly one
slot of the merged-occupied list together with its inversion. -/
theorem invertLoopM_tiles {sM eM : Nat} :
    ∀ (M : List (Nat × Nat)) (cur : Nat), SlotsOK sM eM M →
      (∀ p ∈ M, cur ≤ p.1) →
      ∀ t, cur ≤ t → t < eM →
        (M ++ invertLoopM eM cur M).countP (coversB t) = 1 := by
  intro M
  induction M with
  | nil =>
    intro cur _ _ t hct hte
    unfold invertLoopM
    rw [if_pos (by omega)]
    rw [List.nil_append, countP_coversB_cons, List.countP_nil,
      if_pos ⟨hct, hte⟩]
  | cons p rest ih =>
    intro cur hOK hcur t hct hte
    obtain ⟨s, e⟩ := p
    have hps := hOK.1 (s, e) (by simp)
    simp only at hps
    have hrest : SlotsOK sM eM rest := slotsOK_tail hOK
    have hgap : ∀ q ∈ rest, e < q.1 := slotsOK_head_lt hOK
    have hcs : cur ≤ s := hcur (s, e) (by simp)
    have hcur2 : ∀ q ∈ rest, max cur e ≤ q.1 := by
      intro q hq
      have h1 := hgap q hq
      exact Nat.max_le.mpr ⟨hcur q (by simp [hq]), by omega⟩
    obtain ⟨ihmem, -⟩ := @invertLoopM_ok sM eM rest (max cur e) hrest hcur2
    unfold invertLoopM
    rcases Nat.lt_or_ge t e with hlt | hge
    · -- t < e : exactly one of the head occupied slot or the head free slot
      -- covers t; everything later starts after e.
      have hzero_rest : rest.countP (coversB t) = 0 :=
        countP_zero_of_lt (fun q hq => by have := hgap q hq; omega)
      have hzero_inv : (invertLoopM eM (max cur e) rest).countP (coversB t) = 0 :=
        countP_zero_of_lt (fun q hq => by
          have h1 : e ≤ q.1 := le_trans (Nat.le_max_right cur e) (ihmem q hq).1
          omega)
      rcases Nat.lt_or_ge t s with hts | hst
      · have hcls : cur < s := by omega
        rw [if_pos hcls, List.cons_append, countP_coversB_cons,
          List.countP_append, hzero_rest, countP_coversB_cons, hzero_inv,
          if_pos (show cur ≤ t ∧ t < s from ⟨hct, hts⟩),
          if_neg (show ¬(s ≤ t ∧ t < e) by omega)]
      · by_cases hcls : cur < s
        · rw [if_pos hcls, List.cons_append, countP_coversB_cons,
            List.countP_append, hzero_rest, countP_coversB_cons, hzero_inv,
            if_neg (show ¬(cur ≤ t ∧ t < s) by omega),
            if_pos (show s ≤ t ∧ t < e from ⟨hst, hlt⟩)]
        · rw [if_neg hcls, List.cons_append, countP_coversB_cons,
            List.countP_append, hzero_rest, hzero_inv,
            if_pos (show s ≤ t ∧ t < e from ⟨hst, hlt⟩)]
    · -- e ≤ t : the head covers nothing at t; recurse with cursor max cur e.
      have hIH := ih (max cur e) hrest hcur2 t (Nat.max_le.mpr ⟨hct, hge⟩) hte
      rw [List.countP_append] at hIH
      by_cases hcls : cur < s
      · rw [if_pos hcls, List.cons_append, countP_coversB_cons,
          List.countP_append, countP_coversB_cons,
          if_neg (show ¬(cur ≤ t ∧ t < s) by omega),
          if_neg (show ¬(s ≤ t ∧ t < e) by omega)]
        omega
      · rw [if_neg hcls, List.cons_append, countP_coversB_cons,
          List.countP_append,
          if_neg (show ¬(s ≤ t ∧ t < e) by omega)]
        omega

/- ### Idempotence of the merge -/

theorem foldl_mergeStepM_chain {sM eM : Nat} :
    ∀ (l acc : List (Nat × Nat)),
      (∀ p ∈ l, sM ≤ p.1 ∧ p.1 < p.2 ∧ p.2 ≤ eM) →
      l.Pairwise (fun p q => p.2 < q.1) →
      (∀ h ∈ acc.head?, ∀ p ∈ l, h.2 < p.1) →
      l.foldl (mergeStepM sM eM) acc = l.reverse ++ acc := by
  intro l
  induction l with
  | nil => intro acc _ _ _; simp
  | cons p rest ih =>
    intro acc hb hpw hacc
    obtain ⟨s, e⟩ := p
    have hp := hb (s, e) (by simp)
    simp only at hp
    have hclip1 : max s sM = s := Nat.max_eq_left hp.1
    have hclip2 : min e eM = e := Nat.min_eq_left hp.2.2
    have hskip : ¬ min (s, e).2 eM ≤ max (s, e).1 sM := by
      simp only [hclip1, hclip2]
      omega
    have hstep : mergeStepM sM eM acc (s, e) = (s, e) :: acc := by
      cases acc with
      | nil =>
        rw [mergeStepM_nil hskip]
        simp only [hclip1, hclip2]
      | cons h2 rest2 =>
        obtain ⟨hs2, he2⟩ := h2
        have hlt : he2 < s := by
          have := hacc (hs2, he2) (by simp) (s, e) (by simp)
          simpa using this
        rw [mergeStepM_push hskip (by simp only [hclip1]; omega)]
        simp only [hclip1, hclip2]
    rw [List.foldl_cons, hstep,
      ih ((s, e) :: acc) (fun q hq => hb q (by simp [hq]))
        (List.pairwise_cons.mp hpw).2 ?_]
    · simp [List.reverse_cons, List.append_assoc]
    · intro h hh q hq
      have hh2 : (s, e) = h := by simpa using hh
      subst hh2
      exact (List.pairwise_cons.mp hpw).1 q hq

/-- Merging an already well-formed merged list changes nothing. -/
theorem mergedOccupiedM_of_ok {sM eM : Nat} {ps : List (Nat × Nat)}
    (h : SlotsOK sM eM ps) : mergedOccupiedM ps sM eM = ps := by
  have hpw := slotsOK_pairwise h
  have hsorted : ps.Pairwise (pairLE · · = true) := by
    refine hpw.imp_of_mem ?_
    intro a b ha hb hr
    have hpos := h.1 a ha
    simp only [pairLE, decide_eq_true_eq]
    omega
  unfold mergedOccupiedM
  rw [jsSort_of_pairwise hsorted,
    foldl_mergeStepM_chain ps [] h.1 hpw (by simp)]
  simp

/- ### Permutation invariance of the merge -/

theorem mergeStepM_swap {sM eM : Nat} {p q : Nat × Nat} (hpq : p.1 = q.1)
    (acc : List (Nat × Nat)) :
    mergeStepM sM eM (mergeStepM sM eM acc p) q =
      mergeStepM sM eM (mergeStepM sM eM acc q) p := by
  obtain ⟨p1, p2⟩ := p
  obtain ⟨q1, q2⟩ := q
  simp only at hpq
  subst hpq
  by_cases hp : min (p1, p2).2 eM ≤ max (p1, p2).1 sM <;>
    by_cases hq : min (p1, q2).2 eM ≤ max (p1, q2).1 sM
  · rw [mergeStepM_skip acc hp, mergeStepM_skip acc hq,
      mergeStepM_skip _ hp]
  · rw [mergeStepM_skip acc hp, mergeStepM_skip _ hp]
  · rw [mergeStepM_skip acc hq, mergeStepM_skip _ hq]
  · simp only at hp hq
    cases acc with
    | nil =>
      rw [mergeStepM_nil hp,
        mergeStepM_merge hq (show max p1 sM ≤ min p2 eM by omega),
        mergeStepM_nil hq,
        mergeStepM_merge hp (show max p1 sM ≤ min q2 eM by omega),
        Nat.max_comm (min p2 eM) (min q2 eM)]
    | cons h2 rest =>
      obtain ⟨ls, le⟩ := h2
      by_cases hm : max p1 sM ≤ le
      · rw [mergeStepM_merge hp hm,
          mergeStepM_merge hq (le_trans hm (Nat.le_max_left _ _)),
          mergeStepM_merge hq hm,
          mergeStepM_merge hp (le_trans hm (Nat.le_max_left _ _)),
          Nat.max_assoc, Nat.max_assoc, Nat.max_comm (min p2 eM) (min q2 eM)]
      · rw [mergeStepM_push hp hm,
          mergeStepM_merge hq (show max p1 sM ≤ min p2 eM by omega),
          mergeStepM_push hq hm,
          mergeStepM_merge hp (show max p1 sM ≤ min q2 eM by omega),
          Nat.max_comm (min p2 eM) (min q2 eM)]

/-- First-occurrence removal (insertion-order analogue of `List.erase`,
written out to keep the development self-contained). -/
def eraseFirst (p : Nat × Nat) : List (Nat × Nat) → List (Nat × Nat)
  | [] => []
  | x :: xs => if x = p then xs else x :: eraseFirst p xs

theorem perm_cons_eraseFirst {p : Nat × Nat} :
    ∀ {l : List (Nat × Nat)}, p ∈ l → List.Perm l (p :: eraseFirst p l) := by
  intro l
  induction l with
  | nil => intro h; simp at h
  | cons x xs ih =>
    intro hmem
    by_cases hxp : x = p
    · subst hxp
      rw [eraseFirst, if_pos rfl]
    · have hpxs : p ∈ xs := by
        rcases List.mem_cons.mp hmem with h | h
        · subst h; exact absurd rfl hxp
        · exact h
      rw [eraseFirst, if_neg hxp]
      exact ((ih hpxs).cons x).trans (List.Perm.swap p x _)

theorem eraseFirst_sublist (p : Nat × Nat) :
    ∀ l : List (Nat × Nat), List.Sublist (eraseFirst p l) l := by
  intro l
  induction l with
  | nil => simp [eraseFirst]
  | cons x xs ih =>
    by_cases hxp : x = p
    · rw [eraseFirst, if_pos hxp]
      exact List.sublist_cons_self x xs
    · rw [eraseFirst, if_neg hxp]
      exact ih.cons₂ x

theorem foldl_mergeStepM_pull {sM eM : Nat} :
    ∀ (l : List (Nat × Nat)) (acc : List (Nat × Nat)) (p : Nat × Nat),
      l.Pairwise (fun a b => a.1 ≤ b.1) → p ∈ l → (∀ q ∈ l, p.1 ≤ q.1) →
      l.foldl (mergeStepM sM eM) acc =
        (eraseFirst p l).foldl (mergeStepM sM eM) (mergeStepM sM eM acc p) := by
  intro l
  induction l with
  | nil =>
    intro acc p _ hmem
    exact absurd hmem (List.not_mem_nil p)
  | cons x xs ih =>
    intro acc p hpw hmem hmin
    by_cases hxp : x = p
    · subst hxp
      rw [eraseFirst, if_pos rfl, List.foldl_cons]
    · have hpxs : p ∈ xs := by
        rcases List.mem_cons.mp hmem with h | h
        · subst h; exact absurd rfl hxp
        · exact h
      have hx1 : x.1 ≤ p.1 := (List.pairwise_cons.mp hpw).1 p hpxs
      have hp1 : p.1 ≤ x.1 := hmin x (by simp)
      rw [eraseFirst, if_neg hxp, List.foldl_cons,
        ih (mergeStepM sM eM acc x) p (List.pairwise_cons.mp hpw).2 hpxs
          (fun q hq => hmin q (by simp [hq])),
        mergeStepM_swap (by omega : x.1 = p.1) acc, List.foldl_cons]

theorem foldl_mergeStepM_perm {sM eM : Nat} :
    ∀ (l1 l2 acc : List (Nat × Nat)), List.Perm l1 l2 →
      l1.Pairwise (fun a b => a.1 ≤ b.1) →
      l2.Pairwise (fun a b => a.1 ≤ b.1) →
      l1.foldl (mergeStepM sM eM) acc = l2.foldl (mergeStepM sM eM) acc := by
  intro l1
  induction l1 with
  | nil =>
    intro l2 acc hperm _ _
    rw [hperm.symm.eq_nil]
  | cons p t1 ih =>
    intro l2 acc hperm hpw1 hpw2
    have hmem : p ∈ l2 := hperm.mem_iff.mp (by simp)
    have hmin : ∀ q ∈ l2, p.1 ≤ q.1 := by
      intro q hq
      rcases List.mem_cons.mp (hperm.mem_iff.mpr hq) with h | h
      · rw [h]
      · exact (List.pairwise_cons.mp hpw1).1 q h
    rw [List.foldl_cons, foldl_mergeStepM_pull l2 acc p hpw2 hmem hmin]
    refine ih (eraseFirst p l2) _ ?_ (List.pairwise_cons.mp hpw1).2
      (hpw2.sublist (eraseFirst_sublist p l2))
    exact (List.perm_cons p).mp (hperm.trans (perm_cons_eraseFirst hmem))

theorem pairLE_total : ∀ a b : Nat × Nat, pairLE a b = true ∨ pairLE b a = true := by
  intro a b
  simp only [pairLE, decide_eq_true_eq]
  omega

theorem pairLE_trans : ∀ a b c : Nat × Nat,
    pairLE a b = true → pairLE b c = true → pairLE a c = true := by
  intro a b c
  simp only [pairLE, decide_eq_true_eq]
  omega

theorem sorted_jsSort_pairLE (l : List (Nat × Nat)) :
    (jsSort pairLE l).Pairwise (fun a b => a.1 ≤ b.1) := by
  have := sorted_jsSort pairLE_total pairLE_trans l
  exact this.imp (fun h => by simpa [pairLE] using h)

/-- Merging is invariant under permutation of the input list. -/
theorem mergedOccupiedM_perm {sM eM : Nat} {ps1 ps2 : List (Nat × Nat)}
    (h : List.Perm ps1 ps2) :
    mergedOccupiedM ps1 sM eM = mergedOccupiedM ps2 sM eM := by
  unfold mergedOccupiedM
  congr 1
  apply foldl_mergeStepM_perm
  · exact (jsSort_perm pairLE ps1).trans (h.trans (jsSort_perm pairLE ps2).symm)
  · exact sorted_jsSort_pairLE ps1
  · exact sorted_jsSort_pairLE ps2

/- ### Schedule aggregation (mergeRoomSchedules, room-finder.ts lines 22–38) -/

/-- `Map.get` on an insertion-ordered association list. -/
def jsGet {β : Type _} : List (List Char × β) → List Char → Option β
  | [], _ => none
  | (k0, v) :: rest, k => if k0 = k then some v else jsGet rest k

/-- The inner-map update of `mergeRoomSchedules`: create the day bucket if
absent, then push the occupied slots onto it. -/
def addSlots : List (List Char × List TimeSlot) → List Char → List TimeSlot →
    List (List Char × List TimeSlot)
  | [], day, occ => [(day, occ)]
  | (d, slots) :: rest, day, occ =>
    if d = day then (d, slots ++ occ) :: rest
    else (d, slots) :: addSlots rest day occ

/-- One iteration of the `schedules.forEach` loop of `mergeRoomSchedules`. -/
def addSchedule :
    List (List Char × List (List Char × List TimeSlot)) → RoomSchedule →
      List (List Char × List (List Char × List TimeSlot))
  | [], s => [(s.room, addSlots [] s.day s.occupied)]
  | (r, dm) :: rest, s =>
    if r = s.room then (r, addSlots dm s.day s.occupied) :: rest
    else (r, dm) :: addSchedule rest s

/-- `mergeRoomSchedules` from room-finder.ts (lines 22–38); the JavaScript
`Map`s, which iterate in insertion order, are insertion-ordered association
lists. -/
def mergeRoomSchedules (schedules : List RoomSchedule) :
    List (List Char × List (List Char × List TimeSlot)) :=
  schedules.foldl addSchedule []

/- ### findFreeRooms (room-finder.ts lines 127–169) -/

/-- JavaScript `parseInt` on the fragment this program feeds it: the value of
the longest digit prefix, NaN (`none`) when there is none.  (Whitespace,
signs and radix prefixes never occur in the room identifiers.) -/
def jsParseInt (s : List Char) : Option Nat :=
  match s.takeWhile isDigitChar with
  | [] => none
  | ds => some (digitsVal ds)

/-- JavaScript `duration < minDuration` for a possibly-NaN duration. -/
def jltOI : Option Int → Int → Bool
  | some d, md => decide (d < md)
  | none, _ => false

/-- The condition `minDuration && duration < minDuration` of the first
`continue` (line 146): falsy when `minDuration` is `undefined`, `0` or NaN
(a NaN `minDuration` behaves exactly like `undefined` here). -/
def mdFilter (minDuration : Option Int) (duration : Option Int) : Bool :=
  match minDuration with
  | some md => decide (md ≠ 0) && jltOI duration md
  | none => false

/-- The condition of the second `continue` (lines 149–152):
`targetTime` truthy (defined and non-empty) and
`target < start || target >= end`. -/
def ttFilter (targetTime : Option (List Char)) (start «end» : Option Nat) : Bool :=
  match targetTime with
  | some t => decide (t ≠ []) &&
      (jlt (timeToMinutes t) start || jge (timeToMinutes t) «end»)
  | none => false

/-- The body of the `for (const slot of freeSlots)` loop of `findFreeRooms`
(lines 140–161); `none` when one of the two `continue` filters fires. -/
def slotToFreeRoom (room day : List Char) (targetTime : Option (List Char))
    (minDuration : Option Int) (slot : TimeSlot) : Option FreeRoom :=
  let start := timeToMinutes slot.start
  let «end» := timeToMinutes slot.«end»
  let duration := jsub «end» start
  if mdFilter minDuration duration then none
  else if ttFilter targetTime start «end» then none
  else some ⟨room, day, slot.start, slot.«end», duration⟩

/-- The comparator of the final sort (lines 165–168), as the predicate
"compares ≤ 0".  `b.duration !== a.duration` is true whenever either side is
NaN, the comparator value is then NaN, and the ECMAScript SortCompare
operation maps a NaN comparator value to +0 — hence `true` in those cases;
likewise when a room identifier fails to parse. -/
def freeRoomLE (a b : FreeRoom) : Bool :=
  match a.duration, b.duration with
  | some x, some y =>
    if x ≠ y then decide (y ≤ x)
    else
      match jsParseInt a.room, jsParseInt b.room with
      | some p, some q => decide (p ≤ q)
      | _, _ => true
  | _, _ => true

/-- `findFreeRooms` from room-finder.ts (lines 127–169).  The iteration over
the merged map is in insertion order; the final `sort` is the JavaScript
stable sort by the comparator. -/
def findFreeRooms (schedules : List RoomSchedule) (day : List Char)
    (targetTime : Option (List Char)) (minDuration : Option Int) :
    List FreeRoom :=
  let merged := mergeRoomSchedules schedules
  let freeRooms := merged.foldl
    (fun acc entry =>
      let occupiedSlots := (jsGet entry.2 day).getD []
      let freeSlots :=
        findFreeSlots occupiedSlots OPERATING_HOURS.start OPERATING_HOURS.«end»
      acc ++ freeSlots.filterMap (slotToFreeRoom entry.1 day targetTime minDuration))
    []
  jsSort freeRoomLE freeRooms

/- ### Roster completion (route.ts lines 8–48) -/

/-- `ALL_ROOMS` from route.ts. -/
def ALL_ROOMS : List (List Char) :=
  [['4','0','1'], ['4','0','2'], ['4','0','3'], ['4','0','4'], ['4','0','5'],
   ['5','0','1'], ['5','0','2'], ['5','0','3'], ['5','0','4'], ['5','0','5']]

/-- `DAYS` from route.ts. -/
def DAYS : List (List Char) :=
  [['M','o','n'], ['T','u','e'], ['W','e','d'], ['T','h','u','r']]

/-- The string key `room + "-" + day` used by `getCompleteSchedules`. -/
def rdKey (room day : List Char) : List Char := room ++ '-' :: day

/-- The in-place mutation `existing.occupied = [...existing.occupied, ...]`
of the record stored at key `k` (its map position and other fields stay). -/
def jsSetOcc : List (List Char × RoomSchedule) → List Char → List TimeSlot →
    List (List Char × RoomSchedule)
  | [], _, _ => []
  | (k0, v) :: rest, k, occ =>
    if k0 = k then (k0, ⟨v.room, v.day, occ⟩) :: rest
    else (k0, v) :: jsSetOcc rest k occ

/-- One iteration of the first loop of `getCompleteSchedules` (lines 26–35):
merge the schedule into the string-keyed map. -/
def completeStep (m : List (List Char × RoomSchedule)) (s : RoomSchedule) :
    List (List Char × RoomSchedule) :=
  match jsGet m (rdKey s.room s.day) with
  | some existing =>
    jsSetOcc m (rdKey s.room s.day) (existing.occupied ++ s.occupied)
  | none => m ++ [(rdKey s.room s.day, s)]

/-- One iteration of the padding loop of `getCompleteSchedules`
(lines 38–45): add an empty record when the roster key is missing. -/
def padStep (room : List Char) (m : List (List Char × RoomSchedule))
    (day : List Char) : List (List Char × RoomSchedule) :=
  if (jsGet m (rdKey room day)).isSome then m
  else m ++ [(rdKey room day, ⟨room, day, []⟩)]

/-- `getCompleteSchedules` from route.ts (lines 22–48): index the supplied
schedules by the string key, concatenating occupied lists on key collision,
then append an empty record for every roster room/day key still missing, and
return the map's values in insertion order. -/
def getCompleteSchedules (schedules : List RoomSchedule) : List RoomSchedule :=
  let m1 := schedules.foldl completeStep []
  let m2 := ALL_ROOMS.foldl (fun m room => DAYS.foldl (padStep room) m) m1
  m2.map (fun e => e.2)

/- ### Characterizing the records produced by findFreeRooms -/

theorem foldl_append_eq_flatMap {α β : Type _} (f : α → List β) :
    ∀ (l : List α) (init : List β),
      l.foldl (fun acc e => acc ++ f e) init = init ++ l.flatMap f := by
  intro l
  induction l with
  | nil => intro init; simp
  | cons x xs ih =>
    intro init
    rw [List.foldl_cons, ih, List.flatMap_cons, List.append_assoc]

/-- Membership in the result of `findFreeRooms`, unrolled to the merged map
entry, the free slot, and the loop body. -/
theorem mem_findFreeRooms {schedules : List RoomSchedule} {day : List Char}
    {targetTime : Option (List Char)} {minDuration : Option Int} {fr : FreeRoom} :
    fr ∈ findFreeRooms schedules day targetTime minDuration ↔
      ∃ entry ∈ mergeRoomSchedules schedules,
        ∃ slot ∈ findFreeSlots ((jsGet entry.2 day).getD [])
          OPERATING_HOURS.start OPERATING_HOURS.«end»,
          slotToFreeRoom entry.1 day targetTime minDuration slot = some fr := by
  unfold findFreeRooms
  rw [mem_jsSort, foldl_append_eq_flatMap, List.nil_append, List.mem_flatMap]
  constructor
  · rintro ⟨entry, hentry, hfr⟩
    obtain ⟨slot, hslot, heq⟩ := List.mem_filterMap.mp hfr
    exact ⟨entry, hentry, slot, hslot, heq⟩
  · rintro ⟨entry, hentry, slot, hslot, heq⟩
    exact ⟨entry, hentry, List.mem_filterMap.mpr ⟨slot, hslot, heq⟩⟩

/- ### Grouping facts about mergeRoomSchedules -/

theorem jsGet_mem {β : Type _} :
    ∀ {m : List (List Char × β)} {k : List Char} {v : β},
      jsGet m k = some v → (k, v) ∈ m := by
  intro m
  induction m with
  | nil => intro k v h; simp [jsGet] at h
  | cons e rest ih =>
    intro k v h
    obtain ⟨k0, v0⟩ := e
    rw [jsGet] at h
    by_cases hk : k0 = k
    · rw [if_pos hk] at h
      have hv : v0 = v := Option.some_inj.mp h
      subst hk
      subst hv
      simp
    · rw [if_neg hk] at h
      exact List.mem_cons_of_mem _ (ih h)

/-- Every slot stored anywhere in the merged map comes with property `P` if
all input slots have it. -/
theorem mergeRoomSchedules_slots {P : TimeSlot → Prop}
    {schedules : List RoomSchedule}
    (h : ∀ s ∈ schedules, ∀ slot ∈ s.occupied, P slot) :
    ∀ entry ∈ mergeRoomSchedules schedules, ∀ d ∈ entry.2, ∀ slot ∈ d.2,
      P slot := by
  have haddSlots : ∀ (dm : List (List Char × List TimeSlot)) day occ,
      (∀ d ∈ dm, ∀ slot ∈ d.2, P slot) → (∀ slot ∈ occ, P slot) →
      ∀ d ∈ addSlots dm day occ, ∀ slot ∈ d.2, P slot := by
    intro dm
    induction dm with
    | nil =>
      intro day occ _ hocc d hd slot hslot
      simp only [addSlots, List.mem_singleton] at hd
      subst hd
      exact hocc slot hslot
    | cons e rest ih =>
      intro day occ hdm hocc d hd slot hslot
      obtain ⟨d0, slots0⟩ := e
      rw [addSlots] at hd
      by_cases hk : d0 = day
      · rw [if_pos hk] at hd
        rcases List.mem_cons.mp hd with hdd | hd2
        · subst hdd
          rcases List.mem_append.mp hslot with h1 | h1
          · exact hdm (d0, slots0) (by simp) slot h1
          · exact hocc slot h1
        · exact hdm d (by simp [hd2]) slot hslot
      · rw [if_neg hk] at hd
        rcases List.mem_cons.mp hd with hdd | hd2
        · subst hdd
          exact hdm (d0, slots0) (by simp) slot hslot
        · exact ih day occ
            (fun d2 hd2 slot2 hslot2 => hdm d2 (by simp [hd2]) slot2 hslot2)
            hocc d hd2 slot hslot
  have haddSched : ∀ (m : List (List Char × List (List Char × List TimeSlot)))
      (s : RoomSchedule),
      (∀ entry ∈ m, ∀ d ∈ entry.2, ∀ slot ∈ d.2, P slot) →
      (∀ slot ∈ s.occupied, P slot) →
      ∀ entry ∈ addSchedule m s, ∀ d ∈ entry.2, ∀ slot ∈ d.2, P slot := by
    intro m
    induction m with
    | nil =>
      intro s _ hocc entry hentry
      simp only [addSchedule, List.mem_singleton] at hentry
      subst hentry
      exact haddSlots [] s.day s.occupied (by simp) hocc
    | cons e rest ih =>
      intro s hm hocc entry hentry
      obtain ⟨r, dm⟩ := e
      rw [addSchedule] at hentry
      by_cases hk : r = s.room
      · rw [if_pos hk] at hentry
        rcases List.mem_cons.mp hentry with hee | hentry2
        · subst hee
          exact haddSlots dm s.day s.occupied
            (fun d hd => hm (r, dm) (by simp) d hd) hocc
        · exact hm entry (by simp [hentry2])
      · rw [if_neg hk] at hentry
        rcases List.mem_cons.mp hentry with hee | hentry2
        · subst hee
          exact hm (r, dm) (by simp)
        · exact ih s
            (fun e2 he2 => hm e2 (by simp [he2])) hocc entry hentry2
  have hfold : ∀ (l : List RoomSchedule)
      (acc : List (List Char × List (List Char × List TimeSlot))),
      (∀ s ∈ l, ∀ slot ∈ s.occupied, P slot) →
      (∀ entry ∈ acc, ∀ d ∈ entry.2, ∀ slot ∈ d.2, P slot) →
      ∀ entry ∈ l.foldl addSchedule acc, ∀ d ∈ entry.2, ∀ slot ∈ d.2, P slot := by
    intro l
    induction l with
    | nil => intro acc _ hacc; exact hacc
    | cons s rest ih =>
      intro acc hl hacc
      rw [List.foldl_cons]
      exact ih _ (fun s2 hs2 => hl s2 (by simp [hs2]))
        (haddSched acc s hacc (hl s (by simp)))
  exact hfold schedules [] h (by simp)

/-- Every room key of the merged map is the room of some input schedule. -/
theorem mergeRoomSchedules_rooms {schedules : List RoomSchedule} :
    ∀ entry ∈ mergeRoomSchedules schedules, ∃ s ∈ schedules,
      s.room = entry.1 := by
  have haddSched : ∀ (m : List (List Char × List (List Char × List TimeSlot)))
      (s : RoomSchedule) (entry : _ × _), entry ∈ addSchedule m s →
      entry.1 = s.room ∨ ∃ e2 ∈ m, entry.1 = e2.1 := by
    intro m
    induction m with
    | nil =>
      intro s entry hentry
      simp only [addSchedule, List.mem_singleton] at hentry
      subst hentry
      exact Or.inl rfl
    | cons e rest ih =>
      intro s entry hentry
      obtain ⟨r, dm⟩ := e
      rw [addSchedule] at hentry
      by_cases hk : r = s.room
      · rw [if_pos hk] at hentry
        rcases List.mem_cons.mp hentry with rfl | hentry
        · exact Or.inl hk
        · exact Or.inr ⟨entry, by simp [hentry], rfl⟩
      · rw [if_neg hk] at hentry
        rcases List.mem_cons.mp hentry with rfl | hentry
        · exact Or.inr ⟨(r, dm), by simp, rfl⟩
        · rcases ih s entry hentry with h | ⟨e2, he2, heq⟩
          · exact Or.inl h
          · exact Or.inr ⟨e2, by simp [he2], heq⟩
  have hfold : ∀ (l : List RoomSchedule) (acc : _) (Q : List Char → Prop),
      (∀ s ∈ l, Q s.room) → (∀ entry ∈ acc, Q entry.1) →
      ∀ entry ∈ l.foldl addSchedule acc, Q entry.1 := by
    intro l
    induction l with
    | nil => intro acc Q _ hacc; exact hacc
    | cons s rest ih =>
      intro acc Q hl hacc entry hentry
      rw [List.foldl_cons] at hentry
      refine ih _ Q (fun s2 hs2 => hl s2 (by simp [hs2])) ?_ entry hentry
      intro e2 he2
      rcases haddSched acc s e2 he2 with h | ⟨e3, he3, heq⟩
      · rw [h]
        exact hl s (by simp)
      · rw [heq]
        exact hacc e3 he3
  intro entry hentry
  exact hfold schedules [] (fun r => ∃ s ∈ schedules, s.room = r)
    (fun s hs => ⟨s, hs, rfl⟩) (by simp) entry hentry

theorem addSchedule_keys :
    ∀ (m : List (List Char × List (List Char × List TimeSlot)))
      (s : RoomSchedule),
      (addSchedule m s).map (fun e => e.1) = m.map (fun e => e.1) ∨
      (addSchedule m s).map (fun e => e.1) =
        m.map (fun e => e.1) ++ [s.room] ∧ s.room ∉ m.map (fun e => e.1) := by
  intro m
  induction m with
  | nil =>
    intro s
    exact Or.inr ⟨by simp [addSchedule], by simp⟩
  | cons e rest ih =>
    intro s
    obtain ⟨r, dm⟩ := e
    rw [addSchedule]
    by_cases hk : r = s.room
    · rw [if_pos hk]
      exact Or.inl (by simp)
    · rw [if_neg hk]
      rcases ih s with h | ⟨h, hnm⟩
      · exact Or.inl (by simp [h])
      · refine Or.inr ⟨by simp [h], ?_⟩
        simp only [List.map_cons, List.mem_cons]
        rintro (h1 | h1)
        · exact hk h1.symm
        · exact hnm h1

theorem nodup_append_singleton {l : List (List Char)} {k : List Char}
    (hl : l.Nodup) (hk : k ∉ l) : (l ++ [k]).Nodup := by
  rw [List.nodup_append]
  refine ⟨hl, by simp, ?_⟩
  intro x hx1 hx2
  simp only [List.mem_singleton] at hx2
  subst hx2
  exact hk hx1

/-- The room keys of the merged map are pairwise distinct. -/
theorem mergeRoomSchedules_nodup (schedules : List RoomSchedule) :
    ((mergeRoomSchedules schedules).map (fun e => e.1)).Nodup := by
  have hfold : ∀ (l : List RoomSchedule) (acc : _),
      (acc.map (fun e => e.1)).Nodup →
      ((l.foldl addSchedule acc).map (fun e => e.1)).Nodup := by
    intro l
    induction l with
    | nil => intro acc hacc; exact hacc
    | cons s rest ih =>
      intro acc hacc
      rw [List.foldl_cons]
      refine ih _ ?_
      rcases addSchedule_keys acc s with h | ⟨h, hnm⟩
      · rw [h]; exact hacc
      · rw [h]
        exact nodup_append_singleton hacc hnm
  exact hfold schedules [] (by simp)

/- ### Facts about the free slots fed to the loop body -/

theorem minutesToTime_ne_nil (m : Nat) : minutesToTime m ≠ [] := by
  unfold minutesToTime
  cases h : padStart2 (natToChars (m / 60)) <;> simp

theorem OPERATING_HOURS_start_eq : OPERATING_HOURS.start = minutesToTime 540 := by
  decide

theorem OPERATING_HOURS_end_eq : OPERATING_HOURS.«end» = minutesToTime 1170 := by
  decide

/-- The free slots computed for a valid occupied list are exactly the
printed minute pairs of `freeSlotsM`, and those pairs are a well-formed
gap-chain inside the operating window. -/
theorem findFreeSlots_facts {l : List TimeSlot}
    (hval : ∀ s ∈ l, ValidSlot s) :
    findFreeSlots l OPERATING_HOURS.start OPERATING_HOURS.«end» =
      (freeSlotsM (l.map toPair) 540 1170).map ofPair ∧
    SlotsOK 540 1170 (freeSlotsM (l.map toPair) 540 1170) := by
  constructor
  · rw [OPERATING_HOURS_start_eq, OPERATING_HOURS_end_eq]
    exact findFreeSlots_sim hval
  · have hM := slotsOK_mergedOccupiedM (l.map toPair) 540 1170
    obtain ⟨hmem, hch⟩ := @invertLoopM_ok 540 1170
      (mergedOccupiedM (l.map toPair) 540 1170) 540 hM
      (fun p hp => (hM.1 p hp).1)
    exact ⟨hmem, hch⟩

/- ### The loop body (slotToFreeRoom) on a printed free slot -/

theorem slotToFreeRoom_some {room day : List Char}
    {tt : Option (List Char)} {md : Option Int} {a b : Nat} {fr : FreeRoom}
    (h : slotToFreeRoom room day tt md (ofPair (a, b)) = some fr) :
    fr = ⟨room, day, minutesToTime a, minutesToTime b, some ((b : Int) - a)⟩ ∧
    (∀ md0, md = some md0 → md0 ≠ 0 → ¬ ((b : Int) - a < md0)) ∧
    (∀ T tm, tt = some T → T = minutesToTime tm → a ≤ tm ∧ tm < b) := by
  unfold slotToFreeRoom at h
  simp only [ofPair, timeToMinutes_minutesToTime, jsub] at h
  by_cases h1 : mdFilter md (some ((b : Int) - a)) = true
  · rw [if_pos h1] at h
    exact absurd h (by simp)
  · rw [if_neg h1] at h
    by_cases h2 : ttFilter tt (some a) (some b) = true
    · rw [if_pos h2] at h
      exact absurd h (by simp)
    · rw [if_neg h2] at h
      refine ⟨(Option.some_inj.mp h).symm, ?_, ?_⟩
      · intro md0 hmd hne habs
        apply h1
        subst hmd
        simp only [mdFilter, jltOI]
        rw [decide_eq_true hne, decide_eq_true habs]
        rfl
      · intro T tm htt htm
        subst htt
        subst htm
        by_contra hc
        apply h2
        simp only [ttFilter, timeToMinutes_minutesToTime, jlt, jge]
        rw [decide_eq_true (minutesToTime_ne_nil tm), Bool.true_and]
        rcases (by omega : tm < a ∨ b ≤ tm) with hlt | hge2
        · rw [decide_eq_true hlt, Bool.true_or]
        · rw [decide_eq_true hge2, Bool.or_true]

/- ### Facts about every record returned by findFreeRooms -/

theorem findFreeRooms_result_facts {schedules : List RoomSchedule}
    {day : List Char} {tt : Option (List Char)} {md : Option Int}
    {fr : FreeRoom}
    (hval : ∀ s ∈ schedules, ∀ slot ∈ s.occupied, ValidSlot slot)
    (hfr : fr ∈ findFreeRooms schedules day tt md) :
    ∃ a b : Nat, 540 ≤ a ∧ a < b ∧ b ≤ 1170 ∧
      fr.freeFrom = minutesToTime a ∧ fr.freeTill = minutesToTime b ∧
      fr.duration = some ((b : Int) - (a : Int)) ∧ fr.day = day ∧
      (∃ s ∈ schedules, s.room = fr.room) ∧
      (∀ md0, md = some md0 → md0 ≤ (b : Int) - (a : Int)) ∧
      (∀ T tm, tt = some T → T = minutesToTime tm → a ≤ tm ∧ tm < b) := by
  obtain ⟨entry, hentry, slot, hslot, heq⟩ := mem_findFreeRooms.mp hfr
  have hvalocc : ∀ s ∈ (jsGet entry.2 day).getD [], ValidSlot s := by
    cases hg : jsGet entry.2 day with
    | none => simp
    | some dl =>
      simp only [Option.getD_some]
      intro s hs
      exact mergeRoomSchedules_slots hval entry hentry (day, dl)
        (jsGet_mem hg) s hs
  obtain ⟨hsim, hOK⟩ := findFreeSlots_facts hvalocc
  rw [hsim] at hslot
  obtain ⟨q, hq, hqslot⟩ := List.mem_map.mp hslot
  obtain ⟨a, b⟩ := q
  have hb := hOK.1 (a, b) hq
  simp only at hb
  subst hqslot
  obtain ⟨hfr_eq, hmd, htt⟩ := slotToFreeRoom_some heq
  subst hfr_eq
  refine ⟨a, b, hb.1, hb.2.1, hb.2.2, rfl, rfl, rfl, rfl, ?_, ?_, htt⟩
  · exact mergeRoomSchedules_rooms entry hentry
  · intro md0 hmd0
    have hab : (a : Int) < (b : Int) := by exact_mod_cast hb.2.1
    by_cases h0 : md0 = 0
    · omega
    · have := hmd md0 hmd0 h0
      omega

/- ### The sort key of the final comparator -/

/-- The sort key of a result: its duration and its numeric room value. -/
def frKey (fr : FreeRoom) : Int × Nat :=
  (fr.duration.getD 0, (jsParseInt fr.room).getD 0)

/-- The comparator on keys: duration descending, then numeric room
ascending. -/
def keyLE (x y : Int × Nat) : Bool :=
  if x.1 ≠ y.1 then decide (y.1 ≤ x.1) else decide (x.2 ≤ y.2)

theorem keyLE_total : ∀ x y : Int × Nat, keyLE x y = true ∨ keyLE y x = true := by
  intro x y
  simp only [keyLE]
  by_cases h : x.1 = y.1
  · rw [if_neg (by omega : ¬ x.1 ≠ y.1), if_neg (by omega : ¬ y.1 ≠ x.1)]
    rcases Nat.le_total x.2 y.2 with h2 | h2
    · exact Or.inl (decide_eq_true h2)
    · exact Or.inr (decide_eq_true h2)
  · rw [if_pos h, if_pos (by omega : y.1 ≠ x.1)]
    rcases Int.le_total x.1 y.1 with h2 | h2
    · exact Or.inr (decide_eq_true h2)
    · exact Or.inl (decide_eq_true h2)

theorem keyLE_trans : ∀ x y z : Int × Nat,
    keyLE x y = true → keyLE y z = true → keyLE x z = true := by
  intro x y z
  simp only [keyLE]
  split_ifs <;> simp only [decide_eq_true_eq] <;> omega

theorem freeRoomLE_eq_keyLE {a b : FreeRoom}
    {x y : Int} {p q : Nat}
    (hx : a.duration = some x) (hy : b.duration = some y)
    (hp : jsParseInt a.room = some p) (hq : jsParseInt b.room = some q) :
    freeRoomLE a b = keyLE (frKey a) (frKey b) := by
  unfold freeRoomLE frKey keyLE
  rw [hx, hy, hp, hq]
  by_cases h : x = y
  · simp [h]
  · simp [h]

/-- The output of `findFreeRooms` is sorted by its comparator key whenever
durations are defined and room identifiers are numeric. -/
theorem findFreeRooms_sorted {schedules : List RoomSchedule} {day : List Char}
    {tt : Option (List Char)} {md : Option Int}
    (hval : ∀ s ∈ schedules, ∀ slot ∈ s.occupied, ValidSlot slot)
    (hnum : ∀ s ∈ schedules, (jsParseInt s.room).isSome = true) :
    (findFreeRooms schedules day tt md).Pairwise
      (fun a b => keyLE (frKey a) (frKey b) = true) := by
  have hfacts : ∀ fr ∈ findFreeRooms schedules day tt md,
      (∃ x, fr.duration = some x) ∧ ∃ p, jsParseInt fr.room = some p := by
    intro fr hfr
    obtain ⟨a2, b2, -, -, -, -, -, hdur, -, ⟨s, hs, hroom⟩, -, -⟩ :=
      findFreeRooms_result_facts hval hfr
    refine ⟨⟨_, hdur⟩, ?_⟩
    have := hnum s hs
    rw [hroom] at this
    exact Option.isSome_iff_exists.mp this
  unfold findFreeRooms at hfacts ⊢
  have hcond : ∀ a ∈ (mergeRoomSchedules schedules).foldl
      (fun acc entry =>
        acc ++ (findFreeSlots ((jsGet entry.2 day).getD [])
          OPERATING_HOURS.start OPERATING_HOURS.«end»).filterMap
            (slotToFreeRoom entry.1 day tt md)) [],
      ∀ b ∈ (mergeRoomSchedules schedules).foldl
        (fun acc entry =>
          acc ++ (findFreeSlots ((jsGet entry.2 day).getD [])
            OPERATING_HOURS.start OPERATING_HOURS.«end»).filterMap
              (slotToFreeRoom entry.1 day tt md)) [],
      freeRoomLE a b = keyLE (frKey a) (frKey b) := by
    intro a ha b hb
    obtain ⟨⟨x, hx⟩, ⟨p, hp⟩⟩ := hfacts a (mem_jsSort.mpr ha)
    obtain ⟨⟨y, hy⟩, ⟨q2, hq2⟩⟩ := hfacts b (mem_jsSort.mpr hb)
    exact freeRoomLE_eq_keyLE hx hy hp hq2
  have hmapsort := @map_jsSort _ _ _ keyLE frKey _ hcond
  have hsorted := sorted_jsSort keyLE_total keyLE_trans
    (((mergeRoomSchedules schedules).foldl
      (fun acc entry =>
        acc ++ (findFreeSlots ((jsGet entry.2 day).getD [])
          OPERATING_HOURS.start OPERATING_HOURS.«end»).filterMap
            (slotToFreeRoom entry.1 day tt md)) []).map frKey)
  rw [← hmapsort] at hsorted
  exact (List.pairwise_map.mp hsorted)

/- ### Counting results per room -/

theorem length_filterMap_eq_countP {α β : Type _} (f : α → Option β) :
    ∀ l : List α,
      (l.filterMap f).length = l.countP (fun a => (f a).isSome) := by
  intro l
  induction l with
  | nil => rfl
  | cons x xs ih =>
    cases hfx : f x with
    | none => simp [List.filterMap_cons, hfx, ih, List.countP_cons]
    | some b => simp [List.filterMap_cons, hfx, ih, List.countP_cons]

theorem countP_flatMap {α β : Type _} (f : α → List β) (p : β → Bool) :
    ∀ l : List α,
      (l.flatMap f).countP p = (l.map (fun e => (f e).countP p)).sum := by
  intro l
  induction l with
  | nil => rfl
  | cons x xs ih => simp [List.flatMap_cons, List.countP_append, ih]

theorem countP_le_one_of_chain {tm : Nat} :
    ∀ {l : List (Nat × Nat)}, l.Pairwise (fun p q => p.2 < q.1) →
      l.countP (coversB tm) ≤ 1 := by
  intro l
  induction l with
  | nil => intro _; simp
  | cons p rest ih =>
    intro hpw
    rw [countP_coversB_cons]
    obtain ⟨hhead, hrest⟩ := List.pairwise_cons.mp hpw
    by_cases hc : p.1 ≤ tm ∧ tm < p.2
    · rw [if_pos hc]
      have hz : rest.countP (coversB tm) = 0 :=
        countP_zero_of_lt (fun q hq => by have := hhead q hq; omega)
      omega
    · rw [if_neg hc]
      have := ih hrest
      omega

theorem sum_le_one_unique {α : Type _} (k : α → List Char) (g : α → Nat)
    (r : List Char) :
    ∀ l : List α, (l.map k).Nodup →
      (∀ x ∈ l, ¬ k x = r → g x = 0) → (∀ x ∈ l, g x ≤ 1) →
      (l.map g).sum ≤ 1 := by
  intro l
  induction l with
  | nil => intro _ _ _; simp
  | cons x xs ih =>
    intro hnd hzero hle
    rw [List.map_cons, List.sum_cons]
    obtain ⟨hx_notin, hnd2⟩ := List.nodup_cons.mp hnd
    by_cases hk : k x = r
    · have hxs0 : (xs.map g).sum = 0 := by
        rw [List.sum_eq_zero]
        intro v hv
        obtain ⟨y, hy, hgy⟩ := List.mem_map.mp hv
        rw [← hgy]
        apply hzero y (by simp [hy])
        intro hky
        exact hx_notin (by
          rw [hk, ← hky]
          exact List.mem_map_of_mem k hy)
      have := hle x (by simp)
      omega
    · have h0 := hzero x (by simp) hk
      have h2 := ih hnd2 (fun y hy => hzero y (by simp [hy]))
        (fun y hy => hle y (by simp [hy]))
      omega

theorem slotToFreeRoom_room {room day : List Char} {tt : Option (List Char)}
    {md : Option Int} {slot : TimeSlot} {fr : FreeRoom}
    (h : slotToFreeRoom room day tt md slot = some fr) : fr.room = room := by
  simp only [slotToFreeRoom] at h
  by_cases h1 : mdFilter md
      (jsub (timeToMinutes slot.«end») (timeToMinutes slot.start)) = true
  · rw [if_pos h1] at h
    exact absurd h (by simp)
  · rw [if_neg h1] at h
    by_cases h2 : ttFilter tt (timeToMinutes slot.start)
        (timeToMinutes slot.«end») = true
    · rw [if_pos h2] at h
      exact absurd h (by simp)
    · rw [if_neg h2] at h
      rw [← Option.some_inj.mp h]

/-- For a valid occupied list and a valid target time, at most one free slot
survives the target filter. -/
theorem filterMap_slotToFreeRoom_le_one {room day : List Char}
    {md : Option Int} {occ : List TimeSlot} {tm : Nat}
    (hvalocc : ∀ s ∈ occ, ValidSlot s) :
    ((findFreeSlots occ OPERATING_HOURS.start OPERATING_HOURS.«end»).filterMap
      (slotToFreeRoom room day (some (minutesToTime tm)) md)).length ≤ 1 := by
  obtain ⟨hsim, hOK⟩ := findFreeSlots_facts hvalocc
  rw [hsim, length_filterMap_eq_countP, List.countP_map]
  have hmono := @List.countP_mono_left _
    ((fun sl =>
      (slotToFreeRoom room day (some (minutesToTime tm)) md sl).isSome) ∘ ofPair)
    (coversB tm) (freeSlotsM (occ.map toPair) 540 1170) ?_
  · exact le_trans hmono (countP_le_one_of_chain (slotsOK_pairwise hOK))
  · intro q hq hsome
    obtain ⟨a, b⟩ := q
    simp only [Function.comp] at hsome
    obtain ⟨fr, hfr⟩ := Option.isSome_iff_exists.mp hsome
    obtain ⟨-, -, htt⟩ := slotToFreeRoom_some hfr
    have hcov := htt (minutesToTime tm) tm rfl rfl
    exact decide_eq_true hcov

/-- With a well-formed target time, `findFreeRooms` returns at most one
record per room. -/
theorem findFreeRooms_count_per_room {schedules : List RoomSchedule}
    {day : List Char} {md : Option Int} {tm : Nat} (r : List Char)
    (hval : ∀ s ∈ schedules, ∀ slot ∈ s.occupied, ValidSlot slot) :
    ((findFreeRooms schedules day (some (minutesToTime tm)) md).countP
      (fun fr => decide (fr.room = r))) ≤ 1 := by
  unfold findFreeRooms
  rw [((jsSort_perm freeRoomLE _).countP_eq (fun fr => decide (fr.room = r))),
    foldl_append_eq_flatMap, List.nil_append, countP_flatMap]
  apply sum_le_one_unique (fun entry => entry.1) _ r _
    (mergeRoomSchedules_nodup schedules)
  · intro entry hentry hne
    rw [List.countP_eq_zero]
    intro fr hfr
    obtain ⟨slot, hslot, heq⟩ := List.mem_filterMap.mp hfr
    have := slotToFreeRoom_room heq
    simp only [decide_eq_true_eq]
    intro hc
    exact hne (by rw [← this, hc])
  · intro entry hentry
    have hvalocc : ∀ s ∈ (jsGet entry.2 day).getD [], ValidSlot s := by
      cases hg : jsGet entry.2 day with
      | none => simp
      | some dl =>
        simp only [Option.getD_some]
        intro s hs
        exact mergeRoomSchedules_slots hval entry hentry (day, dl)
          (jsGet_mem hg) s hs
    exact le_trans (List.countP_le_length _)
      (filterMap_slotToFreeRoom_le_one hvalocc)

/- ### Facts about getCompleteSchedules -/

theorem jsGet_append_of_some {β : Type _} (x : List Char × β) :
    ∀ {m : List (List Char × β)} {k : List Char} {v : β},
      jsGet m k = some v → jsGet (m ++ [x]) k = some v := by
  intro m
  induction m with
  | nil => intro k v h; simp [jsGet] at h
  | cons e rest ih =>
    intro k v h
    obtain ⟨k0, v0⟩ := e
    rw [jsGet] at h
    rw [List.cons_append, jsGet]
    by_cases hk : k0 = k
    · rw [if_pos hk] at h ⊢; exact h
    · rw [if_neg hk] at h ⊢; exact ih h

theorem jsGet_append_self {β : Type _} (v : β) :
    ∀ {m : List (List Char × β)} {k : List Char},
      jsGet m k = none → jsGet (m ++ [(k, v)]) k = some v := by
  intro m
  induction m with
  | nil => intro k _; simp [jsGet]
  | cons e rest ih =>
    intro k h
    obtain ⟨k0, v0⟩ := e
    rw [jsGet] at h
    rw [List.cons_append, jsGet]
    by_cases hk : k0 = k
    · rw [if_pos hk] at h; exact absurd h (by simp)
    · rw [if_neg hk] at h ⊢; exact ih h

theorem jsGet_append_other {β : Type _} (v : β) {k k0 : List Char}
    (hne : ¬ k0 = k) :
    ∀ m : List (List Char × β), jsGet (m ++ [(k0, v)]) k = jsGet m k := by
  intro m
  induction m with
  | nil => simp [jsGet, hne]
  | cons e rest ih =>
    obtain ⟨k1, v1⟩ := e
    rw [List.cons_append, jsGet, jsGet]
    by_cases hk : k1 = k
    · rw [if_pos hk, if_pos hk]
    · rw [if_neg hk, if_neg hk, ih]

theorem jsSetOcc_mem :
    ∀ {m : List (List Char × RoomSchedule)} {k : List Char}
      {occ : List TimeSlot} {e : List Char × RoomSchedule},
      e ∈ jsSetOcc m k occ →
      ∃ e0 ∈ m, e.1 = e0.1 ∧ e.2.room = e0.2.room ∧ e.2.day = e0.2.day := by
  intro m
  induction m with
  | nil => intro k occ e h; simp [jsSetOcc] at h
  | cons e1 rest ih =>
    intro k occ e h
    obtain ⟨k0, v⟩ := e1
    rw [jsSetOcc] at h
    by_cases hk : k0 = k
    · rw [if_pos hk] at h
      rcases List.mem_cons.mp h with hee | h2
      · subst hee
        exact ⟨(k0, v), by simp, rfl, rfl, rfl⟩
      · exact ⟨e, by simp [h2], rfl, rfl, rfl⟩
    · rw [if_neg hk] at h
      rcases List.mem_cons.mp h with hee | h2
      · subst hee
        exact ⟨(k0, v), by simp, rfl, rfl, rfl⟩
      · obtain ⟨e0, he0, hh⟩ := ih h2
        exact ⟨e0, by simp [he0], hh⟩

/-- Every entry of the first-phase map takes its key, room and day from some
input schedule. -/
theorem foldl_completeStep_fields
    (P : List Char → List Char → List Char → Prop) :
    ∀ (l : List RoomSchedule) (acc : List (List Char × RoomSchedule)),
      (∀ e ∈ acc, P e.1 e.2.room e.2.day) →
      (∀ s ∈ l, P (rdKey s.room s.day) s.room s.day) →
      ∀ e ∈ l.foldl completeStep acc, P e.1 e.2.room e.2.day := by
  intro l
  induction l with
  | nil => intro acc hacc _; exact hacc
  | cons s rest ih =>
    intro acc hacc hl
    rw [List.foldl_cons]
    refine ih _ ?_ (fun s2 hs2 => hl s2 (by simp [hs2]))
    intro e he
    rw [completeStep] at he
    cases hg : jsGet acc (rdKey s.room s.day) with
    | some existing =>
      rw [hg] at he
      obtain ⟨e0, he0, h1, h2, h3⟩ := jsSetOcc_mem he
      rw [h1, h2, h3]
      exact hacc e0 he0
    | none =>
      rw [hg] at he
      rcases List.mem_append.mp he with h1 | h1
      · exact hacc e h1
      · simp only [List.mem_singleton] at h1
        subst h1
        exact hl s (by simp)

theorem rdKey_right_inj {r d1 d2 : List Char} (h : rdKey r d1 = rdKey r d2) :
    d1 = d2 := by
  unfold rdKey at h
  have := List.append_cancel_left h
  exact List.cons_injective this

/-- Key injectivity of the concrete roster. -/
theorem roster_rdKey_inj :
    ∀ r1 ∈ ALL_ROOMS, ∀ d1 ∈ DAYS, ∀ r2 ∈ ALL_ROOMS, ∀ d2 ∈ DAYS,
      rdKey r1 d1 = rdKey r2 d2 → r1 = r2 ∧ d1 = d2 := by
  decide

theorem padDays_preserve {room0 : List Char} :
    ∀ (ds : List (List Char)) (m : List (List Char × RoomSchedule))
      {k : List Char} {v : RoomSchedule},
      jsGet m k = some v → jsGet (ds.foldl (padStep room0) m) k = some v := by
  intro ds
  induction ds with
  | nil => intro m k v h; exact h
  | cons d0 rest ih =>
    intro m k v h
    rw [List.foldl_cons]
    refine ih _ ?_
    rw [padStep]
    by_cases hp : (jsGet m (rdKey room0 d0)).isSome = true
    · rw [if_pos hp]; exact h
    · rw [if_neg hp]; exact jsGet_append_of_some _ h

theorem padDays_none_other {room0 : List Char} :
    ∀ (ds : List (List Char)) (m : List (List Char × RoomSchedule))
      {k : List Char},
      jsGet m k = none → (∀ d ∈ ds, ¬ rdKey room0 d = k) →
      jsGet (ds.foldl (padStep room0) m) k = none := by
  intro ds
  induction ds with
  | nil => intro m k h _; exact h
  | cons d0 rest ih =>
    intro m k h hne
    rw [List.foldl_cons]
    refine ih _ ?_ (fun d hd => hne d (by simp [hd]))
    rw [padStep]
    by_cases hp : (jsGet m (rdKey room0 d0)).isSome = true
    · rw [if_pos hp]; exact h
    · rw [if_neg hp]
      rw [jsGet_append_other _ (hne d0 (by simp))]
      exact h

theorem padDays_adds {room0 : List Char} :
    ∀ (ds : List (List Char)) (m : List (List Char × RoomSchedule))
      {day : List Char}, day ∈ ds →
      jsGet m (rdKey room0 day) = none →
      jsGet (ds.foldl (padStep room0) m) (rdKey room0 day) =
        some ⟨room0, day, []⟩ := by
  intro ds
  induction ds with
  | nil => intro m day hday; simp at hday
  | cons d0 rest ih =>
    intro m day hday h
    rw [List.foldl_cons]
    by_cases hd : d0 = day
    · subst hd
      rw [padStep, if_neg (by simp [h])]
      exact padDays_preserve rest _ (jsGet_append_self _ h)
    · have hday2 : day ∈ rest := by
        rcases List.mem_cons.mp hday with h1 | h1
        · exact absurd h1.symm hd
        · exact h1
      refine ih _ hday2 ?_
      rw [padStep]
      by_cases hp : (jsGet m (rdKey room0 d0)).isSome = true
      · rw [if_pos hp]; exact h
      · rw [if_neg hp]
        rw [jsGet_append_other _ (fun hc => hd (rdKey_right_inj hc))]
        exact h

theorem padRooms_preserve :
    ∀ (rs : List (List Char)) (m : List (List Char × RoomSchedule))
      {k : List Char} {v : RoomSchedule},
      jsGet m k = some v →
      jsGet (rs.foldl (fun m r => DAYS.foldl (padStep r) m) m) k = some v := by
  intro rs
  induction rs with
  | nil => intro m k v h; exact h
  | cons r0 rest ih =>
    intro m k v h
    rw [List.foldl_cons]
    exact ih _ (padDays_preserve DAYS _ h)

theorem padRooms_adds :
    ∀ (rs : List (List Char)) (m : List (List Char × RoomSchedule))
      {room day : List Char}, room ∈ rs → day ∈ DAYS →
      (∀ r2 ∈ rs, ∀ d2 ∈ DAYS, rdKey r2 d2 = rdKey room day → r2 = room) →
      jsGet m (rdKey room day) = none →
      jsGet (rs.foldl (fun m r => DAYS.foldl (padStep r) m) m)
        (rdKey room day) = some ⟨room, day, []⟩ := by
  intro rs
  induction rs with
  | nil => intro m room day hroom; simp at hroom
  | cons r0 rest ih =>
    intro m room day hroom hday hinj h
    rw [List.foldl_cons]
    by_cases hr : r0 = room
    · subst hr
      exact padRooms_preserve rest _ (padDays_adds DAYS _ hday h)
    · have hroom2 : room ∈ rest := by
        rcases List.mem_cons.mp hroom with h1 | h1
        · exact absurd h1.symm hr
        · exact h1
      refine ih _ hroom2 hday
        (fun r2 hr2 d2 hd2 hc => hinj r2 (by simp [hr2]) d2 hd2 hc) ?_
      exact padDays_none_other DAYS _ h
        (fun d hd hc => hr (hinj r0 (by simp) d hd hc))

theorem padDays_mem {room0 : List Char} :
    ∀ (ds : List (List Char)) (m : List (List Char × RoomSchedule))
      {e : List Char × RoomSchedule},
      e ∈ ds.foldl (padStep room0) m →
      e ∈ m ∨ ∃ d ∈ ds, e = (rdKey room0 d, ⟨room0, d, []⟩) := by
  intro ds
  induction ds with
  | nil => intro m e h; exact Or.inl h
  | cons d0 rest ih =>
    intro m e h
    rw [List.foldl_cons] at h
    rcases ih _ h with h1 | ⟨d, hd, he⟩
    · rw [padStep] at h1
      by_cases hp : (jsGet m (rdKey room0 d0)).isSome = true
      · rw [if_pos hp] at h1; exact Or.inl h1
      · rw [if_neg hp] at h1
        rcases List.mem_append.mp h1 with h2 | h2
        · exact Or.inl h2
        · simp only [List.mem_singleton] at h2
          exact Or.inr ⟨d0, by simp, h2⟩
    · exact Or.inr ⟨d, by simp [hd], he⟩

theorem padRooms_mem :
    ∀ (rs : List (List Char)) (m : List (List Char × RoomSchedule))
      {e : List Char × RoomSchedule},
      e ∈ rs.foldl (fun m r => DAYS.foldl (padStep r) m) m →
      e ∈ m ∨ ∃ r ∈ rs, ∃ d ∈ DAYS, e = (rdKey r d, ⟨r, d, []⟩) := by
  intro rs
  induction rs with
  | nil => intro m e h; exact Or.inl h
  | cons r0 rest ih =>
    intro m e h
    rw [List.foldl_cons] at h
    rcases ih _ h with h1 | ⟨r, hr, hd⟩
    · rcases padDays_mem DAYS _ h1 with h2 | ⟨d, hd, he⟩
      · exact Or.inl h2
      · exact Or.inr ⟨r0, by simp, d, hd, he⟩
    · exact Or.inr ⟨r, by simp [hr], hd⟩

/- ### The day bucket seen by findFreeRooms -/

/-- Nested lookup `merged.get(room)?.get(day)`. -/
def jsGet2 (m : List (List Char × List (List Char × List TimeSlot)))
    (r d : List Char) : Option (List TimeSlot) :=
  match jsGet m r with
  | some dm => jsGet dm d
  | none => none

/-- The concatenated occupied lists of all records for `(r, d)`, in input
order. -/
def occOf (l : List RoomSchedule) (r d : List Char) : List TimeSlot :=
  (l.filter (fun s => decide (s.room = r) && decide (s.day = d))).flatMap
    (fun s => s.occupied)

/-- Whether some record for `(r, d)` occurs in the list. -/
def anyRD (l : List RoomSchedule) (r d : List Char) : Bool :=
  l.any (fun s => decide (s.room = r) && decide (s.day = d))

theorem jsGet2_cons {r0 : List Char} {dm0 : List (List Char × List TimeSlot)}
    {rest : List (List Char × List (List Char × List TimeSlot))}
    {r d : List Char} :
    jsGet2 ((r0, dm0) :: rest) r d =
      if r0 = r then jsGet dm0 d else jsGet2 rest r d := by
  by_cases h : r0 = r
  · rw [if_pos h]
    unfold jsGet2
    rw [jsGet, if_pos h]
  · rw [if_neg h]
    unfold jsGet2
    rw [jsGet, if_neg h]

theorem occOf_cons_hit {s : RoomSchedule} {l : List RoomSchedule}
    {r d : List Char} (h1 : s.room = r) (h2 : s.day = d) :
    occOf (s :: l) r d = s.occupied ++ occOf l r d := by
  unfold occOf
  rw [List.filter_cons, if_pos (by simp [h1, h2]), List.flatMap_cons]

theorem occOf_cons_miss {s : RoomSchedule} {l : List RoomSchedule}
    {r d : List Char} (h : ¬ (s.room = r ∧ s.day = d)) :
    occOf (s :: l) r d = occOf l r d := by
  unfold occOf
  rw [List.filter_cons, if_neg (by simpa using h)]

theorem anyRD_cons_hit {s : RoomSchedule} {l : List RoomSchedule}
    {r d : List Char} (h1 : s.room = r) (h2 : s.day = d) :
    anyRD (s :: l) r d = true := by
  unfold anyRD
  simp [h1, h2]

theorem anyRD_cons_miss {s : RoomSchedule} {l : List RoomSchedule}
    {r d : List Char} (h : ¬ (s.room = r ∧ s.day = d)) :
    anyRD (s :: l) r d = anyRD l r d := by
  unfold anyRD
  rw [List.any_cons]
  have : (decide (s.room = r) && decide (s.day = d)) = false := by
    simpa using h
  rw [this, Bool.false_or]

theorem addSlots_get_same :
    ∀ (dm : List (List Char × List TimeSlot)) (day : List Char)
      (occ : List TimeSlot),
      jsGet (addSlots dm day occ) day = some ((jsGet dm day).getD [] ++ occ) := by
  intro dm
  induction dm with
  | nil => intro day occ; simp [addSlots, jsGet]
  | cons e rest ih =>
    intro day occ
    obtain ⟨d0, slots0⟩ := e
    rw [addSlots]
    by_cases hk : d0 = day
    · rw [if_pos hk, jsGet, if_pos hk, jsGet, if_pos hk]
      simp
    · rw [if_neg hk, jsGet, if_neg hk, jsGet, if_neg hk, ih]

theorem addSlots_get_other :
    ∀ (dm : List (List Char × List TimeSlot)) {day d : List Char}
      (occ : List TimeSlot), ¬ d = day →
      jsGet (addSlots dm day occ) d = jsGet dm d := by
  intro dm
  induction dm with
  | nil =>
    intro day d occ hne
    simp only [addSlots, jsGet]
    rw [if_neg (fun h => hne h.symm)]
  | cons e rest ih =>
    intro day d occ hne
    obtain ⟨d0, slots0⟩ := e
    rw [addSlots]
    by_cases hk : d0 = day
    · rw [if_pos hk, jsGet, jsGet]
      subst hk
      rw [if_neg (fun h => hne h.symm), if_neg (fun h => hne h.symm)]
    · rw [if_neg hk, jsGet, jsGet]
      by_cases h2 : d0 = d
      · rw [if_pos h2, if_pos h2]
      · rw [if_neg h2, if_neg h2, ih occ hne]

theorem addSchedule_get2_same :
    ∀ (m : List (List Char × List (List Char × List TimeSlot)))
      (s : RoomSchedule),
      jsGet2 (addSchedule m s) s.room s.day =
        some ((jsGet2 m s.room s.day).getD [] ++ s.occupied) := by
  intro m
  induction m with
  | nil =>
    intro s
    rw [addSchedule, jsGet2_cons, if_pos rfl, addSlots_get_same]
    simp [jsGet2, jsGet]
  | cons e rest ih =>
    intro s
    obtain ⟨r, dm⟩ := e
    rw [addSchedule]
    by_cases hk : r = s.room
    · rw [if_pos hk, jsGet2_cons, jsGet2_cons, if_pos hk, if_pos hk,
        addSlots_get_same]
    · rw [if_neg hk, jsGet2_cons, jsGet2_cons, if_neg hk, if_neg hk]
      exact ih s

theorem addSchedule_get2_other :
    ∀ (m : List (List Char × List (List Char × List TimeSlot)))
      (s : RoomSchedule) {r d : List Char}, ¬ (r = s.room ∧ d = s.day) →
      jsGet2 (addSchedule m s) r d = jsGet2 m r d := by
  intro m
  induction m with
  | nil =>
    intro s r d hne
    rw [addSchedule, jsGet2_cons]
    by_cases hr : s.room = r
    · rw [if_pos hr]
      have hd : ¬ d = s.day := fun h => hne ⟨hr.symm, h⟩
      rw [addSlots_get_other [] s.occupied hd]
      simp [jsGet, jsGet2]
    · rw [if_neg hr]
  | cons e rest ih =>
    intro s r d hne
    obtain ⟨r0, dm⟩ := e
    rw [addSchedule]
    by_cases hk : r0 = s.room
    · rw [if_pos hk, jsGet2_cons, jsGet2_cons]
      by_cases hr : r0 = r
      · rw [if_pos hr, if_pos hr]
        have hd : ¬ d = s.day := fun h => hne ⟨by rw [← hr, hk], h⟩
        exact addSlots_get_other dm s.occupied hd
      · rw [if_neg hr, if_neg hr]
    · rw [if_neg hk, jsGet2_cons, jsGet2_cons]
      by_cases hr : r0 = r
      · rw [if_pos hr, if_pos hr]
      · rw [if_neg hr, if_neg hr]
        exact ih s hne

theorem foldl_addSchedule_get2_some :
    ∀ (l : List RoomSchedule)
      (m : List (List Char × List (List Char × List TimeSlot)))
      {r d : List Char} {dl : List TimeSlot}, jsGet2 m r d = some dl →
      jsGet2 (l.foldl addSchedule m) r d = some (dl ++ occOf l r d) := by
  intro l
  induction l with
  | nil =>
    intro m r d dl hm
    simp only [List.foldl_nil, occOf, List.filter_nil, List.flatMap_nil,
      List.append_nil]
    exact hm
  | cons s rest ih =>
    intro m r d dl hm
    rw [List.foldl_cons]
    by_cases hs : s.room = r ∧ s.day = d
    · obtain ⟨h1, h2⟩ := hs
      have hstep := addSchedule_get2_same m s
      rw [h1, h2, hm] at hstep
      rw [ih _ hstep, occOf_cons_hit h1 h2]
      simp [List.append_assoc]
    · have hstep := addSchedule_get2_other m s
        (fun hc => hs ⟨hc.1.symm, hc.2.symm⟩)
      rw [occOf_cons_miss hs]
      rw [← hstep] at hm
      exact ih _ hm

theorem foldl_addSchedule_get2_none :
    ∀ (l : List RoomSchedule)
      (m : List (List Char × List (List Char × List TimeSlot)))
      {r d : List Char}, jsGet2 m r d = none →
      jsGet2 (l.foldl addSchedule m) r d =
        if anyRD l r d = true then some (occOf l r d) else none := by
  intro l
  induction l with
  | nil =>
    intro m r d hm
    simp only [List.foldl_nil, anyRD, List.any_nil]
    simpa using hm
  | cons s rest ih =>
    intro m r d hm
    rw [List.foldl_cons]
    by_cases hs : s.room = r ∧ s.day = d
    · obtain ⟨h1, h2⟩ := hs
      have hstep := addSchedule_get2_same m s
      rw [h1, h2, hm] at hstep
      simp only [Option.getD_none, List.nil_append] at hstep
      rw [foldl_addSchedule_get2_some rest _ hstep,
        occOf_cons_hit h1 h2, anyRD_cons_hit h1 h2, if_pos rfl]
    · have hstep := addSchedule_get2_other m s
        (fun hc => hs ⟨hc.1.symm, hc.2.symm⟩)
      rw [← hstep] at hm
      rw [ih _ hm, occOf_cons_miss hs, anyRD_cons_miss hs]

/-- The day bucket that `findFreeRooms` reads for `(r, d)` is exactly the
concatenation of the matching occupied lists. -/
theorem mergeRoomSchedules_get2 (l : List RoomSchedule) (r d : List Char) :
    jsGet2 (mergeRoomSchedules l) r d =
      if anyRD l r d = true then some (occOf l r d) else none :=
  foldl_addSchedule_get2_none l [] rfl

theorem occOf_eq_nil {l : List RoomSchedule} {r d : List Char}
    (h : ∀ c ∈ l, c.room = r → c.day = d → c.occupied = []) :
    occOf l r d = [] := by
  induction l with
  | nil => rfl
  | cons c rest ih =>
    by_cases hc : c.room = r ∧ c.day = d
    · rw [occOf_cons_hit hc.1 hc.2, h c (by simp) hc.1 hc.2,
        List.nil_append]
      exact ih (fun c2 hc2 => h c2 (by simp [hc2]))
    · rw [occOf_cons_miss hc]
      exact ih (fun c2 hc2 => h c2 (by simp [hc2]))

theorem anyRD_of_mem {l : List RoomSchedule} {c : RoomSchedule}
    {r d : List Char} (hc : c ∈ l) (h1 : c.room = r) (h2 : c.day = d) :
    anyRD l r d = true :=
  List.any_eq_true.mpr ⟨c, hc, by simp [h1, h2]⟩

/- ### The complete pipeline on a roster room with no matching records -/

/-- Through `getCompleteSchedules` and `findFreeRooms`: a roster room with no
record keyed `room-day` in the input appears free for the whole operating
window. -/
theorem pipeline_full_window {schedules : List RoomSchedule}
    {room day : List Char} (hroom : room ∈ ALL_ROOMS) (hday : day ∈ DAYS)
    (hkey : ∀ s ∈ schedules, ¬ rdKey s.room s.day = rdKey room day) :
    (⟨room, day, minutesToTime 540, minutesToTime 1170,
        some ((1170 : Int) - (540 : Int))⟩ : FreeRoom) ∈
      findFreeRooms (getCompleteSchedules schedules) day none none := by
  have hm1none : jsGet (schedules.foldl completeStep []) (rdKey room day) = none := by
    cases hg : jsGet (schedules.foldl completeStep []) (rdKey room day) with
    | none => rfl
    | some v =>
      have hmem := jsGet_mem hg
      have := foldl_completeStep_fields
        (fun k r2 d2 => ∃ s ∈ schedules, k = rdKey s.room s.day)
        schedules [] (by simp) (fun s hs => ⟨s, hs, rfl⟩) _ hmem
      obtain ⟨s, hs, hk⟩ := this
      exact absurd hk.symm (hkey s hs)
  have hpad : jsGet (ALL_ROOMS.foldl (fun m r => DAYS.foldl (padStep r) m)
      (schedules.foldl completeStep [])) (rdKey room day) =
      some ⟨room, day, []⟩ :=
    padRooms_adds ALL_ROOMS _ hroom hday
      (fun r2 hr2 d2 hd2 hc => (roster_rdKey_inj r2 hr2 d2 hd2 room hroom day hday hc).1)
      hm1none
  have hcs_eq : getCompleteSchedules schedules =
      (ALL_ROOMS.foldl (fun m r => DAYS.foldl (padStep r) m)
        (schedules.foldl completeStep [])).map (fun e => e.2) := rfl
  have hmem2 : (⟨room, day, []⟩ : RoomSchedule) ∈ getCompleteSchedules schedules := by
    rw [hcs_eq]
    exact List.mem_map.mpr
      ⟨(rdKey room day, ⟨room, day, []⟩), jsGet_mem hpad, rfl⟩
  have hocc0 : ∀ c ∈ getCompleteSchedules schedules,
      c.room = room → c.day = day → c.occupied = [] := by
    intro c hc h1 h2
    rw [hcs_eq] at hc
    obtain ⟨e, he, hce⟩ := List.mem_map.mp hc
    rcases padRooms_mem ALL_ROOMS _ he with h3 | ⟨r2, hr2, d2, hd2, he2⟩
    · have hf := foldl_completeStep_fields
        (fun k r3 d3 => ∃ s ∈ schedules, r3 = s.room ∧ d3 = s.day)
        schedules [] (by simp) (fun s hs => ⟨s, hs, rfl, rfl⟩) _ h3
      obtain ⟨s, hs, hr, hd⟩ := hf
      exfalso
      apply hkey s hs
      rw [← hr, ← hd, hce, h1, h2]
    · rw [he2] at hce
      rw [← hce]
  have hget2 : jsGet2 (mergeRoomSchedules (getCompleteSchedules schedules))
      room day = some [] := by
    rw [mergeRoomSchedules_get2,
      if_pos (anyRD_of_mem hmem2 rfl rfl),
      occOf_eq_nil hocc0]
  cases hdm : jsGet (mergeRoomSchedules (getCompleteSchedules schedules)) room with
  | none =>
    unfold jsGet2 at hget2
    rw [hdm] at hget2
    exact absurd (hget2 : (none : Option (List TimeSlot)) = some []) (by simp)
  | some dm =>
    unfold jsGet2 at hget2
    rw [hdm] at hget2
    have hget3 : jsGet dm day = some [] := hget2
    refine mem_findFreeRooms.mpr ⟨(room, dm), jsGet_mem hdm,
      ⟨minutesToTime 540, minutesToTime 1170⟩, ?_, ?_⟩
    · show (⟨minutesToTime 540, minutesToTime 1170⟩ : TimeSlot) ∈
        findFreeSlots ((jsGet dm day).getD [])
          OPERATING_HOURS.start OPERATING_HOURS.«end»
      rw [hget3]
      have hfs : findFreeSlots [] OPERATING_HOURS.start OPERATING_HOURS.«end» =
          [⟨minutesToTime 540, minutesToTime 1170⟩] := by decide
      rw [show ((some [] : Option (List TimeSlot)).getD []) =
        ([] : List TimeSlot) from rfl, hfs]
      simp
    · rfl

/- ### The claims -/

/-- C1: Tiling invariant: for every list of occupied TimeSlots for one
room/day, the merged occupied slots produced by the interval merger together
with the free slots derived by findFreeSlots partition the operating window
[window.start, window.end] exactly — their union, converted to minutes,
covers the window with no gaps and no overlaps (every minute of the window
lies in exactly one slot of the union, and every slot of the union lies
inside the window). -/
theorem C1_tiling (l : List TimeSlot) (sM eM : Nat)
    (hval : ∀ s ∈ l, ValidSlot s) :
    (∀ t, sM ≤ t → t < eM →
      ((mergedOccupied l (minutesToTime sM) (minutesToTime eM) ++
        findFreeSlots l (minutesToTime sM) (minutesToTime eM)).map
          toPair).countP (coversB t) = 1) ∧
    (∀ slot ∈ mergedOccupied l (minutesToTime sM) (minutesToTime eM) ++
        findFreeSlots l (minutesToTime sM) (minutesToTime eM),
      ∃ a b, timeToMinutes slot.start = some a ∧
        timeToMinutes slot.«end» = some b ∧ sM ≤ a ∧ a < b ∧ b ≤ eM) := by
  have hM := @mergedOccupied_sim sM eM _ hval
  have hF := @findFreeSlots_sim sM eM _ hval
  have hOK := slotsOK_mergedOccupiedM (l.map toPair) sM eM
  have hFOK := @invertLoopM_ok sM eM
    (mergedOccupiedM (l.map toPair) sM eM) sM hOK (fun p hp => (hOK.1 p hp).1)
  constructor
  · intro t hst hte
    rw [hM, hF]
    have hmap : ((mergedOccupiedM (l.map toPair) sM eM).map ofPair ++
        (freeSlotsM (l.map toPair) sM eM).map ofPair).map toPair =
        mergedOccupiedM (l.map toPair) sM eM ++
          freeSlotsM (l.map toPair) sM eM := by
      rw [← List.map_append, List.map_map]
      refine (List.map_congr_left ?_).trans (List.map_id _)
      intro p hp
      exact toPair_ofPair p
    rw [hmap]
    exact invertLoopM_tiles (mergedOccupiedM (l.map toPair) sM eM) sM hOK
      (fun p hp => (hOK.1 p hp).1) t hst hte
  · intro slot hslot
    rw [hM, hF, ← List.map_append] at hslot
    obtain ⟨q, hq, hqs⟩ := List.mem_map.mp hslot
    obtain ⟨a, b⟩ := q
    subst hqs
    rcases List.mem_append.mp hq with h1 | h1
    · have := hOK.1 (a, b) h1
      exact ⟨a, b, by simp [ofPair, timeToMinutes_minutesToTime],
        by simp [ofPair, timeToMinutes_minutesToTime], this.1, this.2.1, this.2.2⟩
    · have := hFOK.1 (a, b) h1
      exact ⟨a, b, by simp [ofPair, timeToMinutes_minutesToTime],
        by simp [ofPair, timeToMinutes_minutesToTime], this.1, this.2.1, this.2.2⟩

theorem C1_tiling_witness :
    ((mergedOccupied [⟨['1','0',':','0','0'], ['1','1',':','0','0']⟩]
        (minutesToTime 540) (minutesToTime 1170) ++
      findFreeSlots [⟨['1','0',':','0','0'], ['1','1',':','0','0']⟩]
        (minutesToTime 540) (minutesToTime 1170)).map toPair).countP
      (coversB 600) = 1 :=
  (C1_tiling _ 540 1170 (fun s hs => by
    rw [List.mem_singleton.mp hs]
    exact ⟨⟨600, by decide⟩, ⟨660, by decide⟩⟩)).1 600 (by decide) (by decide)

/-- C4: For every unordered input list of occupied TimeSlots, the interval
merger returns a list sorted ascending by start, mutually non-overlapping,
in which touching intervals are merged (consecutive output slots are
separated by a strictly positive gap, so `end_i >= start_{i+1}` never
survives), each output slot clipped to the operating window with degenerate
slots dropped (window-start ≤ start < end ≤ window-end); in particular
inputs [{10:00,11:00},{10:30,12:00}] merge to [{10:00,12:00}]. -/
theorem C4_merge (l : List TimeSlot) (sM eM : Nat)
    (hval : ∀ s ∈ l, ValidSlot s) :
    (∀ slot ∈ mergedOccupied l (minutesToTime sM) (minutesToTime eM),
      ∃ a b, timeToMinutes slot.start = some a ∧
        timeToMinutes slot.«end» = some b ∧ sM ≤ a ∧ a < b ∧ b ≤ eM) ∧
    ((mergedOccupied l (minutesToTime sM) (minutesToTime eM)).map
      toPair).Chain' (fun p q => p.2 < q.1) ∧
    mergedOccupied
      [⟨['1','0',':','0','0'], ['1','1',':','0','0']⟩,
       ⟨['1','0',':','3','0'], ['1','2',':','0','0']⟩]
      ['0','9',':','0','0'] ['1','9',':','3','0'] =
      [⟨['1','0',':','0','0'], ['1','2',':','0','0']⟩] := by
  have hM := @mergedOccupied_sim sM eM _ hval
  have hOK := slotsOK_mergedOccupiedM (l.map toPair) sM eM
  refine ⟨?_, ?_, by decide⟩
  · intro slot hslot
    rw [hM] at hslot
    obtain ⟨q, hq, hqs⟩ := List.mem_map.mp hslot
    obtain ⟨a, b⟩ := q
    subst hqs
    have := hOK.1 (a, b) hq
    exact ⟨a, b, by simp [ofPair, timeToMinutes_minutesToTime],
      by simp [ofPair, timeToMinutes_minutesToTime], this.1, this.2.1, this.2.2⟩
  · rw [hM, List.map_map]
    have : (mergedOccupiedM (l.map toPair) sM eM).map (toPair ∘ ofPair) =
        mergedOccupiedM (l.map toPair) sM eM := by
      refine (List.map_congr_left ?_).trans (List.map_id _)
      intro p hp
      exact toPair_ofPair p
    rw [this]
    exact hOK.2

theorem C4_merge_witness :
    mergedOccupied
      [⟨['1','0',':','0','0'], ['1','1',':','0','0']⟩,
       ⟨['1','0',':','3','0'], ['1','2',':','0','0']⟩]
      ['0','9',':','0','0'] ['1','9',':','3','0'] =
      [⟨['1','0',':','0','0'], ['1','2',':','0','0']⟩] :=
  (C4_merge [] 540 1170 (fun s hs => by simp at hs)).2.2

/-- C8: Idempotence of merge: merging the output of the interval merger
again returns the same list unchanged. -/
theorem C8_idempotent (l : List TimeSlot) (sM eM : Nat)
    (hval : ∀ s ∈ l, ValidSlot s) :
    mergedOccupied (mergedOccupied l (minutesToTime sM) (minutesToTime eM))
      (minutesToTime sM) (minutesToTime eM) =
      mergedOccupied l (minutesToTime sM) (minutesToTime eM) := by
  have hM := @mergedOccupied_sim sM eM _ hval
  have hOK := slotsOK_mergedOccupiedM (l.map toPair) sM eM
  have hval2 : ∀ s ∈ mergedOccupied l (minutesToTime sM) (minutesToTime eM),
      ValidSlot s := by
    intro s hs
    rw [hM] at hs
    obtain ⟨q, hq, hqs⟩ := List.mem_map.mp hs
    subst hqs
    exact validSlot_ofPair q
  rw [mergedOccupied_sim hval2]
  have hback : (mergedOccupied l (minutesToTime sM) (minutesToTime eM)).map
      toPair = mergedOccupiedM (l.map toPair) sM eM := by
    rw [hM, List.map_map]
    refine (List.map_congr_left ?_).trans (List.map_id _)
    intro p hp
    exact toPair_ofPair p
  rw [hback, mergedOccupiedM_of_ok hOK, ← hM]

theorem C8_idempotent_witness :
    mergedOccupied
      (mergedOccupied [⟨['1','0',':','0','0'], ['1','1',':','0','0']⟩]
        (minutesToTime 540) (minutesToTime 1170))
      (minutesToTime 540) (minutesToTime 1170) =
      mergedOccupied [⟨['1','0',':','0','0'], ['1','1',':','0','0']⟩]
        (minutesToTime 540) (minutesToTime 1170) :=
  C8_idempotent _ 540 1170 (fun s hs => by
    rw [List.mem_singleton.mp hs]
    exact ⟨⟨600, by decide⟩, ⟨660, by decide⟩⟩)

/-- C9: Order invariance of merge: merging any permutation of the occupied
slot list yields the identical merged output. -/
theorem C9_perm (l1 l2 : List TimeSlot) (sM eM : Nat)
    (hval : ∀ s ∈ l1, ValidSlot s) (hperm : List.Perm l1 l2) :
    mergedOccupied l1 (minutesToTime sM) (minutesToTime eM) =
      mergedOccupied l2 (minutesToTime sM) (minutesToTime eM) := by
  have hval2 : ∀ s ∈ l2, ValidSlot s :=
    fun s hs => hval s (hperm.mem_iff.mpr hs)
  rw [mergedOccupied_sim hval, mergedOccupied_sim hval2,
    mergedOccupiedM_perm (hperm.map toPair)]

theorem C9_perm_witness :
    mergedOccupied
      [⟨['1','0',':','0','0'], ['1','1',':','0','0']⟩,
       ⟨['1','0',':','3','0'], ['1','2',':','0','0']⟩]
      (minutesToTime 540) (minutesToTime 1170) =
      mergedOccupied
        [⟨['1','0',':','3','0'], ['1','2',':','0','0']⟩,
         ⟨['1','0',':','0','0'], ['1','1',':','0','0']⟩]
        (minutesToTime 540) (minutesToTime 1170) :=
  C9_perm _ _ 540 1170 (fun s hs => by
    rcases List.mem_cons.mp hs with h | h
    · rw [h]
      exact ⟨⟨600, by decide⟩, ⟨660, by decide⟩⟩
    · rw [List.mem_singleton.mp h]
      exact ⟨⟨630, by decide⟩, ⟨720, by decide⟩⟩)
    (by decide)

/-- C5: Filter correctness of findFreeRooms: for every query with
targetTime = T, every returned result's interval contains T end-exclusively
(toMinutes T lies in [start, end)); and for every query with
minDurationMinutes set, no returned result has durationMinutes below it. -/
theorem C5_filters (schedules : List RoomSchedule) (day T : List Char)
    (md : Option Int) (tm : Nat)
    (hval : ∀ s ∈ schedules, ∀ slot ∈ s.occupied, ValidSlot slot)
    (hT : T = minutesToTime tm) :
    (∀ fr ∈ findFreeRooms schedules day (some T) md,
      ∃ a b, timeToMinutes fr.freeFrom = some a ∧
        timeToMinutes fr.freeTill = some b ∧ a ≤ tm ∧ tm < b) ∧
    (∀ tt : Option (List Char), ∀ fr ∈ findFreeRooms schedules day tt md,
      ∀ md0, md = some md0 →
        ∃ d : Int, fr.duration = some d ∧ md0 ≤ d) := by
  constructor
  · intro fr hfr
    obtain ⟨a, b, -, -, -, hfrom, htill, -, -, -, -, htgt⟩ :=
      findFreeRooms_result_facts hval hfr
    refine ⟨a, b, ?_, ?_, htgt T tm rfl hT⟩
    · rw [hfrom, timeToMinutes_minutesToTime]
    · rw [htill, timeToMinutes_minutesToTime]
  · intro tt fr hfr md0 hmd0
    obtain ⟨a, b, -, -, -, -, -, hdur, -, -, hmd, -⟩ :=
      findFreeRooms_result_facts hval hfr
    exact ⟨(b : Int) - a, hdur, hmd md0 hmd0⟩

theorem C5_filters_witness :
    (∃ a b, timeToMinutes
        (['0','9',':','3','0'] : List Char) = some a ∧
      timeToMinutes (['1','4',':','3','0'] : List Char) = some b ∧
      a ≤ 600 ∧ 600 < b) ∧
    (∃ d : Int, some ((870 : Int) - 570) = some d ∧ 250 ≤ d) := by
  have happ := C5_filters
    [⟨['4','0','2'], ['M','o','n'],
      [⟨['0','9',':','0','0'], ['0','9',':','3','0']⟩,
       ⟨['1','4',':','3','0'], ['1','5',':','3','0']⟩]⟩]
    ['M','o','n'] ['1','0',':','0','0'] (some 250) 600
    (fun s hs slot hslot => by
      rw [List.mem_singleton.mp hs] at hslot
      rcases List.mem_cons.mp hslot with h | h
      · rw [h]
        exact ⟨⟨540, by decide⟩, ⟨570, by decide⟩⟩
      · rw [List.mem_singleton.mp h]
        exact ⟨⟨870, by decide⟩, ⟨930, by decide⟩⟩)
    (by decide)
  refine ⟨?_, ?_⟩
  · have h1 := happ.1
      ⟨['4','0','2'], ['M','o','n'], ['0','9',':','3','0'],
        ['1','4',':','3','0'], some ((870 : Int) - 570)⟩ (by decide)
    exact h1
  · have h2 := happ.2 (some ['1','0',':','0','0'])
      ⟨['4','0','2'], ['M','o','n'], ['0','9',':','3','0'],
        ['1','4',':','3','0'], some ((870 : Int) - 570)⟩ (by decide) 250 rfl
    exact h2

/-- C6: Sort correctness of findFreeRooms: the returned list is
non-increasing in durationMinutes, and among results with equal durations
the room identifiers appear in ascending numeric order (compared as
integers, not lexicographically): with equal durations, "402" sorts before
"501" and before "4010". -/
theorem C6_sort (schedules : List RoomSchedule) (day : List Char)
    (tt : Option (List Char)) (md : Option Int)
    (hval : ∀ s ∈ schedules, ∀ slot ∈ s.occupied, ValidSlot slot)
    (hnum : ∀ s ∈ schedules, (jsParseInt s.room).isSome = true) :
    (findFreeRooms schedules day tt md).Pairwise (fun a b =>
      (b.duration.getD 0 : Int) ≤ a.duration.getD 0 ∧
      (a.duration = b.duration →
        (jsParseInt a.room).getD 0 ≤ (jsParseInt b.room).getD 0)) ∧
    (findFreeRooms
      [⟨['5','0','1'], ['M','o','n'], []⟩,
       ⟨['4','0','1','0'], ['M','o','n'], []⟩,
       ⟨['4','0','2'], ['M','o','n'], []⟩]
      ['M','o','n'] none none).map (fun fr => fr.room) =
      [['4','0','2'], ['5','0','1'], ['4','0','1','0']] := by
  refine ⟨?_, by decide⟩
  refine (findFreeRooms_sorted hval hnum).imp ?_
  intro a b hk
  simp only [keyLE, frKey] at hk
  by_cases h : (a.duration.getD 0 : Int) = b.duration.getD 0
  · rw [if_neg (by simpa using h)] at hk
    simp only [decide_eq_true_eq] at hk
    exact ⟨le_of_eq h.symm, fun _ => hk⟩
  · rw [if_pos (by simpa using h)] at hk
    simp only [decide_eq_true_eq] at hk
    refine ⟨hk, fun hd => ?_⟩
    exact absurd (by rw [hd]) h

theorem C6_sort_witness :
    (findFreeRooms
      [⟨['5','0','1'], ['M','o','n'], []⟩,
       ⟨['4','0','1','0'], ['M','o','n'], []⟩,
       ⟨['4','0','2'], ['M','o','n'], []⟩]
      ['M','o','n'] none none).map (fun fr => fr.room) =
      [['4','0','2'], ['5','0','1'], ['4','0','1','0']] :=
  (C6_sort [] ['M','o','n'] none none (fun s hs => by simp at hs)
    (fun s hs => by simp at hs)).2

/-- C7: Duration correctness: for every FreeRoomResult returned by
findFreeRooms, durationMinutes equals toMinutes(freeTill) -
toMinutes(freeFrom) exactly, and this value is strictly greater than 0. -/
theorem C7_duration (schedules : List RoomSchedule) (day : List Char)
    (tt : Option (List Char)) (md : Option Int)
    (hval : ∀ s ∈ schedules, ∀ slot ∈ s.occupied, ValidSlot slot) :
    ∀ fr ∈ findFreeRooms schedules day tt md,
      ∃ a b : Nat, timeToMinutes fr.freeFrom = some a ∧
        timeToMinutes fr.freeTill = some b ∧
        fr.duration = some ((b : Int) - a) ∧ (0 : Int) < (b : Int) - a := by
  intro fr hfr
  obtain ⟨a, b, -, hab, -, hfrom, htill, hdur, -, -, -, -⟩ :=
    findFreeRooms_result_facts hval hfr
  refine ⟨a, b, ?_, ?_, hdur, ?_⟩
  · rw [hfrom, timeToMinutes_minutesToTime]
  · rw [htill, timeToMinutes_minutesToTime]
  · have : (a : Int) < (b : Int) := by exact_mod_cast hab
    omega

theorem C7_duration_witness :
    ∃ a b : Nat, timeToMinutes (['0','9',':','3','0'] : List Char) = some a ∧
      timeToMinutes (['1','9',':','3','0'] : List Char) = some b ∧
      (some ((1170 : Int) - 570) : Option Int) = some ((b : Int) - a) ∧
      (0 : Int) < (b : Int) - a := by
  have happ := C7_duration
    [⟨['4','0','2'], ['M','o','n'],
      [⟨['0','9',':','0','0'], ['0','9',':','3','0']⟩]⟩]
    ['M','o','n'] none none
    (fun s hs slot hslot => by
      rw [List.mem_singleton.mp hs] at hslot
      rw [List.mem_singleton.mp hslot]
      exact ⟨⟨540, by decide⟩, ⟨570, by decide⟩⟩)
    ⟨['4','0','2'], ['M','o','n'], ['0','9',':','3','0'],
      ['1','9',':','3','0'], some ((1170 : Int) - 570)⟩ (by decide)
  exact happ

/-- C10: For every schedule list, day and well-formed target time T,
findFreeRooms with targetTime = T returns at most one FreeRoomResult per
room: the free slots derived for one room/day are pairwise disjoint, so at
most one of them contains T. -/
theorem C10_unique (schedules : List RoomSchedule) (day : List Char)
    (md : Option Int) (tm : Nat) (r : List Char)
    (hval : ∀ s ∈ schedules, ∀ slot ∈ s.occupied, ValidSlot slot) :
    ((findFreeRooms schedules day (some (minutesToTime tm)) md).countP
      (fun fr => decide (fr.room = r))) ≤ 1 :=
  findFreeRooms_count_per_room r hval

theorem C10_unique_witness :
    ((findFreeRooms
      [⟨['4','0','2'], ['M','o','n'],
        [⟨['0','9',':','0','0'], ['0','9',':','3','0']⟩,
         ⟨['1','4',':','3','0'], ['1','5',':','3','0']⟩]⟩]
      ['M','o','n'] (some (minutesToTime 600)) none).countP
      (fun fr => decide (fr.room = ['4','0','2']))) ≤ 1 :=
  C10_unique _ ['M','o','n'] none 600 ['4','0','2']
    (fun s hs slot hslot => by
      rw [List.mem_singleton.mp hs] at hslot
      rcases List.mem_cons.mp hslot with h | h
      · rw [h]
        exact ⟨⟨540, by decide⟩, ⟨570, by decide⟩⟩
      · rw [List.mem_singleton.mp h]
        exact ⟨⟨870, by decide⟩, ⟨930, by decide⟩⟩)

set_option maxRecDepth 100000 in
/-- C2 counterexample: room "999", supplied in the occupancy data but not in
the roster, is NOT ignored: it appears in the output of `findFreeRooms`
applied to the completed schedules. -/
theorem C2_counterexample :
    ((findFreeRooms (getCompleteSchedules [⟨['9','9','9'], ['M','o','n'], []⟩])
      ['M','o','n'] none none).map (fun fr => fr.room)).contains
      ['9','9','9'] = true := by decide

set_option maxRecDepth 100000 in
/-- C2 (amended): `findFreeRooms` iterates the rooms present in the supplied
schedule data, not a fixed roster; the roster enters only upstream, where
`getCompleteSchedules` pads every roster room/day with an empty record — so
a roster room with no record keyed `room-day` still appears free for the
whole operating window after padding — but non-roster rooms supplied in the
data are kept, not ignored: room "999" appears in the result. -/
theorem C2_amended :
    (∀ (schedules : List RoomSchedule) (room day : List Char),
      room ∈ ALL_ROOMS → day ∈ DAYS →
      (∀ s ∈ schedules, ¬ rdKey s.room s.day = rdKey room day) →
      (⟨room, day, minutesToTime 540, minutesToTime 1170,
        some ((1170 : Int) - (540 : Int))⟩ : FreeRoom) ∈
        findFreeRooms (getCompleteSchedules schedules) day none none) ∧
    (⟨['9','9','9'], ['M','o','n'], minutesToTime 540, minutesToTime 1170,
        some ((1170 : Int) - (540 : Int))⟩ : FreeRoom) ∈
      findFreeRooms (getCompleteSchedules [⟨['9','9','9'], ['M','o','n'], []⟩])
        ['M','o','n'] none none := by
  refine ⟨fun schedules room day h1 h2 h3 => pipeline_full_window h1 h2 h3, ?_⟩
  decide

theorem C2_amended_witness :
    (⟨['4','0','1'], ['M','o','n'], minutesToTime 540, minutesToTime 1170,
        some ((1170 : Int) - (540 : Int))⟩ : FreeRoom) ∈
      findFreeRooms (getCompleteSchedules []) ['M','o','n'] none none :=
  C2_amended.1 [] ['4','0','1'] ['M','o','n'] (by decide) (by decide)
    (fun s hs => by simp at hs)

/-- C3 counterexample: `timeToMinutes` does not fail on an out-of-range
clock string: "25:99" (hour 25, minute 99) is converted to the ordinary
number 25*60+99 = 1599 instead of producing an error. -/
theorem C3_counterexample :
    timeToMinutes ['2','5',':','9','9'] = some 1599 := by decide

/-- C3 (amended): `timeToMinutes` performs no validation at all and never
raises an error: any pair of decimal numerals around a colon — including
hours and minutes far outside [0,23] and [0,59] — is converted
arithmetically to hours*60+minutes, while a string without a colon or with
non-numeric parts silently evaluates to NaN (modelled `none`), not to a
thrown FormatError. -/
theorem C3_amended :
    (∀ h m : Nat,
      timeToMinutes (natToChars h ++ ':' :: natToChars m) = some (h * 60 + m)) ∧
    timeToMinutes ['2','5',':','9','9'] = some 1599 ∧
    timeToMinutes ['1','0'] = none ∧
    timeToMinutes ['a','b',':','c','d'] = none := by
  refine ⟨?_, by decide, by decide, by decide⟩
  intro h m
  unfold timeToMinutes
  rw [splitColon_append (fun x hx => natToChars_no_colon hx),
    splitColon_no_colon (fun x hx => natToChars_no_colon hx)]
  simp only [List.map_cons, List.map_nil]
  obtain ⟨hall1, hval1, hne1⟩ := natToChars_spec h
  obtain ⟨hall2, hval2, hne2⟩ := natToChars_spec m
  rw [jsNumber_digits hall1 hne1, jsNumber_digits hall2 hne2, hval1, hval2]
  rfl

end RoomFinder
